import Mathlib
set_option maxRecDepth 10000
namespace Ttt

/-- `src/source/parser.rs`: the expression tree produced by the parser. -/
inductive Expr where
  | Identifier : String → Expr
  | Not : Expr → Expr
  | And : Expr → Expr → Expr
  | Or : Expr → Expr → Expr
  | Xor : Expr → Expr → Expr
  | Implication : Expr → Expr → Expr
deriving DecidableEq, Repr

/-- `src/eval/mod.rs`: `enum EvaluationError` (all variants of the source). -/
inductive EvaluationError where
  | TooManyVariables (count max : Nat)
  | InvalidVariableName (name : String)
  | ExpressionTooComplex (reason : String)
  | ReductionTimeout (max_iterations : Nat)
  | UnsupportedOperation (operation : String)
  | EmptyExpression
  | InvalidTruthAssignment (var ctx : String)
deriving DecidableEq, Repr

/-- `src/config.rs`: `MAX_VARIABLES`. -/
def MAX_VARIABLES : Nat := 20

/-- `src/config.rs`: `MAX_VARIABLE_NAME_LENGTH`. -/
def MAX_VARIABLE_NAME_LENGTH : Nat := 50

/-- Model of `HashMap<String, bool>`: an association list; the maps built by
the engine always have pairwise distinct keys. -/
abbrev Assignment := List (String × Bool)

/-- `assignments.get(name).copied().unwrap_or(false)` from
`src/eval/truth_table.rs` (`evaluate_expression`, `Expr::Identifier` arm). -/
def Assignment.get (a : Assignment) (name : String) : Bool :=
  match a.find? (fun p => p.1 == name) with
  | some p => p.2
  | none => false

/-- `src/eval/truth_table.rs` lines 131-152: `evaluate_expression`. -/
def evaluate_expression : Expr → Assignment → Bool
  | .Identifier name, a => a.get name
  | .Not inner, a => !(evaluate_expression inner a)
  | .And left right, a => evaluate_expression left a && evaluate_expression right a
  | .Or left right, a => evaluate_expression left a || evaluate_expression right a
  | .Xor left right, a => xor (evaluate_expression left a) (evaluate_expression right a)
  | .Implication left right, a => !(evaluate_expression left a) || evaluate_expression right a

/-- Evaluation against a total valuation; `evaluate_expression` is this
function applied to the lookup function of the map. -/
def evalF : Expr → (String → Bool) → Bool
  | .Identifier name, f => f name
  | .Not inner, f => !(evalF inner f)
  | .And left right, f => evalF left f && evalF right f
  | .Or left right, f => evalF left f || evalF right f
  | .Xor left right, f => xor (evalF left f) (evalF right f)
  | .Implication left right, f => !(evalF left f) || evalF right f

/-- The identifier names of an expression, in pre-order traversal order
(the order in which `collect_from_expr` visits the leaves). -/
def identsList : Expr → List String
  | .Identifier name => [name]
  | .Not inner => identsList inner
  | .And left right => identsList left ++ identsList right
  | .Or left right => identsList left ++ identsList right
  | .Xor left right => identsList left ++ identsList right
  | .Implication left right => identsList left ++ identsList right

/-- The name-validity test from `src/eval/mod.rs` lines 81-83 (negated:
`true` means the name is accepted). -/
def validName (name : String) : Bool :=
  !(name.isEmpty || name.length > MAX_VARIABLE_NAME_LENGTH ||
    !(name.toList.all (fun c => c.isAlphanum || c == '_')))

/-- Lexicographic comparison of character lists; `strLt` below is the string
order used by `BTreeSet<String>` (Rust compares UTF-8 byte sequences, which
agrees with code-point lexicographic order). -/
def strLtAux : List Char → List Char → Bool
  | [], [] => false
  | [], _ :: _ => true
  | _ :: _, [] => false
  | c :: cs, d :: ds => if c < d then true else if d < c then false else strLtAux cs ds

/-- The `BTreeSet<String>` ordering, as an executable comparison. -/
def strLt (x y : String) : Bool := strLtAux x.toList y.toList

/-- `BTreeSet<String>::insert`: insertion into a sorted duplicate-free list. -/
def insertSorted (x : String) : List String → List String
  | [] => [x]
  | y :: ys =>
      if strLt x y then x :: y :: ys else if x = y then y :: ys else y :: insertSorted x ys

/-- `src/eval/mod.rs` lines 77-107: `Variables::collect_from_expr`, with the
current `BTreeSet` contents as explicit state. -/
def collect_from_expr (vars : List String) : Expr → Except EvaluationError (List String)
  | .Identifier name =>
      if !(validName name) then .error (.InvalidVariableName name)
      else
        let vars' := insertSorted name vars
        if vars'.length > MAX_VARIABLES then
          .error (.TooManyVariables vars'.length MAX_VARIABLES)
        else .ok vars'
  | .Not e => collect_from_expr vars e
  | .And left right => do
      let v ← collect_from_expr vars left
      collect_from_expr v right
  | .Or left right => do
      let v ← collect_from_expr vars left
      collect_from_expr v right
  | .Xor left right => do
      let v ← collect_from_expr vars left
      collect_from_expr v right
  | .Implication left right => do
      let v ← collect_from_expr vars left
      collect_from_expr v right

namespace Variables

/-- `src/eval/mod.rs`: `Variables::from_expr`. -/
def from_expr (e : Expr) : Except EvaluationError (List String) :=
  collect_from_expr [] e

end Variables

/-- Reference fold: `collect_from_expr` processes exactly the pre-order
identifier list, one name at a time. -/
def collectNames (vars : List String) : List String → Except EvaluationError (List String)
  | [] => .ok vars
  | n :: ns =>
      if !(validName n) then .error (.InvalidVariableName n)
      else
        let vars' := insertSorted n vars
        if vars'.length > MAX_VARIABLES then
          .error (.TooManyVariables vars'.length MAX_VARIABLES)
        else collectNames vars' ns

/-- The set of names after folding all insertions; `collectNames` returns
exactly this list when it succeeds. -/
def unionFold (vars : List String) : List String → List String
  | [] => vars
  | n :: ns => unionFold (insertSorted n vars) ns

/-! ### Truth tables (`src/eval/truth_table.rs`) -/

/-- `src/eval/truth_table.rs`: `struct TruthTableRow`. -/
structure TruthTableRow where
  assignments : Assignment
  result : Bool
deriving DecidableEq, Repr

/-- `src/eval/truth_table.rs`: `struct TruthTable`. The source field
`variables` is spelled `vars` because `variables` is a Lean keyword. -/
structure TruthTable where
  vars : List String
  rows : List TruthTableRow
deriving DecidableEq, Repr

/-- The assignment map built for row `i` in `generate_truth_table` lines
107-114 (and, identically, in `check_equivalence` lines 53-59): variable at
sorted position `var_idx` gets `(i >> var_idx) & 1 == 1`. -/
def rowAssignment (vars : List String) (i : Nat) : Assignment :=
  vars.enum.map fun p => (p.2, ((i >>> p.1) &&& 1 == 1))

/-- `src/eval/truth_table.rs` lines 89-128: `generate_truth_table`. -/
def generate_truth_table (e : Expr) : Except EvaluationError TruthTable :=
  match Variables.from_expr e with
  | .error err => .error err
  | .ok vs =>
      let num_vars := vs.length
      if num_vars = 0 then
        .ok ⟨vs, [⟨[], evaluate_expression e []⟩]⟩
      else
        let rows := (List.range (1 <<< num_vars)).map fun i =>
          let assignments := rowAssignment vs i
          ⟨assignments, evaluate_expression e assignments⟩
        .ok ⟨vs, rows⟩

/-! ### Equivalence checking (`src/eval/equivalence.rs`) -/

/-- `src/eval/equivalence.rs`: `struct EquivalenceDifference`. -/
structure EquivalenceDifference where
  assignment : Assignment
  left_value : Bool
  right_value : Bool
deriving DecidableEq, Repr

/-- `src/eval/equivalence.rs`: `struct EquivalenceCheck`. The source field
`variables` is spelled `vars` because `variables` is a Lean keyword. -/
structure EquivalenceCheck where
  equivalent : Bool
  vars : List String
  differences : List EquivalenceDifference
deriving DecidableEq, Repr

namespace Variables

/-- `src/eval/mod.rs`: `Variables::union` (`BTreeSet::union`). -/
def union (a b : List String) : List String := unionFold a b

end Variables

/-- The `differences` list collected by the enumeration loop of
`check_equivalence` (lines 51-72). -/
def equivDiffs (left right : Expr) (all_vars : List String) : List EquivalenceDifference :=
  (List.range (1 <<< all_vars.length)).filterMap fun i =>
    let assignments := rowAssignment all_vars i
    let left_result := evaluate_expression left assignments
    let right_result := evaluate_expression right assignments
    if left_result != right_result then
      some ⟨assignments, left_result, right_result⟩
    else none

/-- `src/eval/equivalence.rs` lines 23-79: `check_equivalence`. -/
def check_equivalence (left right : Expr) : Except EvaluationError EquivalenceCheck :=
  match Variables.from_expr left with
  | .error err => .error err
  | .ok left_vars =>
      match Variables.from_expr right with
      | .error err => .error err
      | .ok right_vars =>
          let all_vars := Variables.union left_vars right_vars
          let num_vars := all_vars.length
          if num_vars = 0 then
            let left_result := evaluate_expression left []
            let right_result := evaluate_expression right []
            .ok ⟨left_result == right_result, all_vars,
              if left_result != right_result then [⟨[], left_result, right_result⟩] else []⟩
          else
            .ok ⟨(equivDiffs left right all_vars).isEmpty, all_vars,
              equivDiffs left right all_vars⟩

/-! ### Reduction (`src/eval/reduction.rs`) -/

/-- `src/eval/reduction.rs`: `struct Reduction`. -/
structure Reduction where
  original : Expr
  reduced : Expr
  simplified : Bool
deriving DecidableEq, Repr

/-- `src/eval/reduction.rs` lines 16-22: `struct Minterm` — tri-state literal
vector plus the covered original minterm indices (`BTreeSet<usize>`, modelled
as a sorted duplicate-free list). -/
structure Minterm where
  bits : List (Option Bool)
  covered_minterms : List Nat
deriving DecidableEq, Repr

instance : Inhabited Minterm := ⟨⟨[], []⟩⟩

/-- `BTreeSet<usize>::insert`. -/
def insertSortedNat (x : Nat) : List Nat → List Nat
  | [] => [x]
  | y :: ys =>
      if x < y then x :: y :: ys else if x = y then y :: ys else y :: insertSortedNat x ys

/-- `covered_minterms.extend(&other.covered_minterms)`: set union. -/
def unionNat (a b : List Nat) : List Nat :=
  b.foldl (fun acc x => insertSortedNat x acc) a

/-- `Minterm::new` (lines 25-36): the seed implicant of one minterm index. -/
def Minterm.new (minterm_index num_vars : Nat) : Minterm :=
  { bits := (List.range num_vars).map fun i =>
      some ((minterm_index >>> (num_vars - 1 - i)) &&& 1 == 1),
    covered_minterms := [minterm_index] }

/-- `Minterm::count_ones` (lines 39-41). -/
def Minterm.count_ones (m : Minterm) : Nat :=
  (m.bits.filter fun bit => bit == some true).length

/-- The bit loop of `Minterm::combine` (lines 49-65): walk the two vectors,
counting differing fully-specified positions; fail on a don't-care mismatch
or as soon as more than one position differs. -/
def combineBits : List (Option Bool) → List (Option Bool) → Option (List (Option Bool) × Nat)
  | [], [] => some ([], 0)
  | oa :: ta, ob :: tb =>
      match combineBits ta tb with
      | none => none
      | some (rest, diff_count) =>
          match oa, ob with
          | some a, some b =>
              if a = b then some (some a :: rest, diff_count)
              else if diff_count + 1 > 1 then none
              else some (none :: rest, diff_count + 1)
          | none, none => some (none :: rest, diff_count)
          | _, _ => none
  | _, _ => none

/-- `Minterm::combine` (lines 44-74). -/
def Minterm.combine (m other : Minterm) : Option Minterm :=
  if m.bits.length ≠ other.bits.length then none
  else
    match combineBits m.bits other.bits with
    | none => none
    | some (combined_bits, diff_count) =>
        if diff_count = 1 then
          some ⟨combined_bits, unionNat m.covered_minterms other.covered_minterms⟩
        else none

/-- The `terms` vector built in `Minterm::to_expression` (lines 79-87):
`bits` is paired positionally with the variable vector (`var_vec[i]` in the
source; the two always have equal length in the algorithm). -/
def termsOf (bits : List (Option Bool)) (vars : List String) : List Expr :=
  (bits.zip vars).filterMap fun p =>
    match p.1 with
    | some true => some (Expr.Identifier p.2)
    | some false => some (Expr.Not (Expr.Identifier p.2))
    | none => none

/-- `Minterm::to_expression` (lines 77-100). -/
def Minterm.to_expression (m : Minterm) (vars : List String) : Option Expr :=
  match termsOf m.bits vars with
  | [] => none
  | t :: ts => some (ts.foldl (fun result term => Expr.And result term) t)

/-- The assignment map built for row `i` in `QuineMcCluskey::from_expression`
lines 117-128 (and identically in `is_tautology` / `is_contradiction`): the
variable at sorted position `j` gets `(i >> (num_vars - 1 - j)) & 1 == 1`. -/
def qmAssignment (vars : List String) (num_vars i : Nat) : Assignment :=
  vars.enum.map fun p => (p.2, ((i >>> (num_vars - 1 - p.1)) &&& 1 == 1))

/-- The ON-set built by `QuineMcCluskey::from_expression` (lines 111-131):
the ascending list of row indices whose assignment makes `e` true. -/
def onSet (e : Expr) (vars : List String) : List Nat :=
  (List.range (1 <<< vars.length)).filter fun i =>
    evaluate_expression e (qmAssignment vars vars.length i)

/-- Ordering of `Option<bool>` used by `a.bits.cmp(&b.bits)`:
`None < Some(false) < Some(true)`. -/
def obLt : Option Bool → Option Bool → Bool
  | none, some _ => true
  | some false, some true => true
  | _, _ => false

/-- Lexicographic comparison of literal vectors (`Vec::cmp`). -/
def bitsLt : List (Option Bool) → List (Option Bool) → Bool
  | [], [] => false
  | [], _ :: _ => true
  | _ :: _, [] => false
  | a :: ta, b :: tb => if a = b then bitsLt ta tb else obLt a b

/-- Stable insertion used to model the stable
`next_implicants.sort_by(|a, b| a.bits.cmp(&b.bits))`. -/
def insertByBits (x : Minterm) : List Minterm → List Minterm
  | [] => [x]
  | y :: ys => if bitsLt x.bits y.bits then x :: y :: ys else y :: insertByBits x ys

/-- Stable sort by literal vector. -/
def sortByBits (l : List Minterm) : List Minterm :=
  l.foldl (fun acc x => insertByBits x acc) []

/-- `Vec::dedup` (line 203): removes consecutive duplicates. -/
def dedupAdj : List Minterm → List Minterm
  | [] => []
  | [x] => [x]
  | x :: y :: rest => if x = y then dedupAdj (y :: rest) else x :: dedupAdj (y :: rest)

/-- One round of `find_prime_implicants` (lines 168-206): the index pairs
tried for combination.  The groups are the `BTreeMap` buckets by
`ones_count` (each bucket holds its indices in ascending order), and pairs
are drawn from adjacent buckets in ascending bucket order. -/
def roundPairs (cur : List Minterm) : List (Nat × Nat) :=
  let maxOnes := (cur.map Minterm.count_ones).foldl max 0
  (List.range (maxOnes + 1)).flatMap fun ones_count =>
    ((List.range cur.length).filter fun i =>
      (cur.getD i default).count_ones == ones_count).flatMap fun i =>
      ((List.range cur.length).filter fun j =>
        (cur.getD j default).count_ones == ones_count + 1).map fun j => (i, j)

/-- The combined implicants pushed to `next_implicants` in one round. -/
def roundNextRaw (cur : List Minterm) : List Minterm :=
  (roundPairs cur).filterMap fun p =>
    (cur.getD p.1 default).combine (cur.getD p.2 default)

/-- Whether `used[k]` is set during one round. -/
def usedIdx (cur : List Minterm) (k : Nat) : Bool :=
  (roundPairs cur).any fun p =>
    (k == p.1 || k == p.2) &&
      ((cur.getD p.1 default).combine (cur.getD p.2 default)).isSome

/-- The implicants emitted as primes in one round (lines 195-199). -/
def roundPrimes (cur : List Minterm) : List Minterm :=
  ((List.range cur.length).filter fun k => !(usedIdx cur k)).map fun k =>
    cur.getD k default

/-- The next generation: combined implicants, sorted by literal vector and
deduplicated (lines 202-205). -/
def roundNext (cur : List Minterm) : List Minterm :=
  dedupAdj (sortByBits (roundNextRaw cur))

/-- `QuineMcCluskey::find_prime_implicants` (lines 165-209).  The source
`while !current_implicants.is_empty()` loop terminates because every round
strictly decreases the maximal number of fully-specified literals; the fuel
parameter is irrelevant as soon as it exceeds that number (proved below), so
`minimize` runs this with fuel `num_vars + 1`, which computes exactly the
source loop. -/
def findPIAux : Nat → List Minterm → List Minterm → List Minterm
  | _, prime_implicants, [] => prime_implicants
  | 0, prime_implicants, _ => prime_implicants
  | fuel + 1, prime_implicants, cur =>
      findPIAux fuel (prime_implicants ++ roundPrimes cur) (roundNext cur)

/-- `find_prime_implicants`, fueled as explained above. -/
def find_prime_implicants (num_vars : Nat) (current_implicants : List Minterm) :
    List Minterm :=
  findPIAux (num_vars + 1) [] current_implicants

/-- The body of the essential-implicant scan (lines 229-251): if exactly one
available implicant covers `minterm` and its index is not yet recorded,
record it. -/
def essentialStep (available : List Minterm) (to_remove : List Nat) (minterm : Nat) :
    List Nat :=
  let covering := available.enum.filter fun p => p.2.covered_minterms.contains minterm
  match covering with
  | [(idx, _)] => if to_remove.contains idx then to_remove else to_remove ++ [idx]
  | _ => to_remove

/-- One pass of the essential-implicant loop in `find_minimal_cover` (lines
222-267): scan the still-uncovered minterms in ascending order, recording
(`to_remove`) each implicant index that is the unique available cover of
some minterm and has not been recorded in this pass. -/
def essentialPass (available : List Minterm) (uncovered : List Nat) : List Nat :=
  uncovered.foldl (essentialStep available) []

/-- Removal of a set of positions (the source sorts `to_remove` descending
and applies `Vec::remove` position by position; the recorded indices are
pairwise distinct, so this equals dropping those positions). -/
def removeIndices (l : List Minterm) (idxs : List Nat) : List Minterm :=
  (l.enum.filter fun p => !(idxs.contains p.1)).map fun p => p.2

/-- `covered_by_essential` membership: is `x` covered by one of `sel`? -/
def coveredByAny (sel : List Minterm) (x : Nat) : Bool :=
  sel.any fun m => m.covered_minterms.contains x

/-- The essential-implicant loop of `find_minimal_cover` (lines 222-267);
each productive pass removes at least one available implicant, so
`available.length + 1` passes always reach the unproductive exit taken by
the source `loop`. -/
def essentialLoop : Nat → List Minterm → List Nat → List Minterm →
    (List Minterm × List Nat × List Minterm)
  | 0, available, uncovered, selected => (available, uncovered, selected)
  | fuel + 1, available, uncovered, selected =>
      if (essentialPass available uncovered).isEmpty then (available, uncovered, selected)
      else
        essentialLoop fuel
          (removeIndices available (essentialPass available uncovered))
          (uncovered.filter fun m =>
            !(coveredByAny
              ((essentialPass available uncovered).map fun idx => available.getD idx default) m))
          (selected ++ (essentialPass available uncovered).map fun idx =>
            available.getD idx default)

/-- `Iterator::max_by_key` over `available.iter().enumerate()` keyed by the
number of still-uncovered minterms covered (lines 277-282); Rust's
`max_by_key` returns the last maximal element on ties. -/
def maxByCoverCount (available : List Minterm) (uncovered : List Nat) :
    Option (Nat × Minterm) :=
  available.enum.foldl
    (fun best p =>
      match best with
      | none => some p
      | some q =>
          if (p.2.covered_minterms.filter fun x => uncovered.contains x).length ≥
              (q.2.covered_minterms.filter fun x => uncovered.contains x).length
          then some p else some q)
    none

/-- The greedy phase of `find_minimal_cover` (lines 274-296); every
iteration removes one available implicant, so fuel `available.length + 1`
computes the source `while` loop exactly. -/
def greedyLoop : Nat → List Minterm → List Nat → List Minterm → List Minterm
  | 0, _, _, selected => selected
  | fuel + 1, available, uncovered, selected =>
      if uncovered.isEmpty || available.isEmpty then selected
      else
        match maxByCoverCount available uncovered with
        | none => selected
        | some (idx, implicant) =>
            greedyLoop fuel (available.eraseIdx idx)
              (uncovered.filter fun m => !(implicant.covered_minterms.contains m))
              (selected ++ [implicant])

/-- `QuineMcCluskey::find_minimal_cover` (lines 212-299). -/
def find_minimal_cover (minterms : List Nat) (prime_implicants : List Minterm) :
    List Minterm :=
  if prime_implicants.isEmpty then []
  else
    let st := essentialLoop (prime_implicants.length + 1) prime_implicants minterms []
    let available_implicants := st.1
    let uncovered_minterms := st.2.1
    let selected_implicants := st.2.2
    if uncovered_minterms.isEmpty then selected_implicants
    else
      greedyLoop (available_implicants.length + 1) available_implicants
        uncovered_minterms selected_implicants

/-- `QuineMcCluskey::implicants_to_expression` (lines 302-327). -/
def implicants_to_expression (vars : List String) (implicants : List Minterm) :
    Option Expr :=
  if implicants.isEmpty then none
  else
    let terms := implicants.filterMap fun m => m.to_expression vars
    match terms with
    | [] => none
    | t :: ts => some (ts.foldl (fun result term => Expr.Or result term) t)

/-- The always-true sentinel `(true ∨ ¬true)` of `reduce_expression`. -/
def trueSentinel : Expr :=
  .Or (.Identifier "true") (.Not (.Identifier "true"))

/-- The always-false sentinel `(false ∧ ¬false)` of `reduce_expression` and
`QuineMcCluskey::minimize`. -/
def falseSentinel : Expr :=
  .And (.Identifier "false") (.Not (.Identifier "false"))

/-- `QuineMcCluskey::minimize` (lines 134-162), with the struct fields
(`variables`, `minterms`) passed explicitly. -/
def minimize (vars : List String) (minterms : List Nat) : Option Expr :=
  if minterms.isEmpty then some falseSentinel
  else
    let num_vars := vars.length
    if num_vars = 0 then none
    else
      let current_implicants := minterms.map fun idx => Minterm.new idx num_vars
      let prime_implicants := find_prime_implicants num_vars current_implicants
      let minimal_cover := find_minimal_cover minterms prime_implicants
      implicants_to_expression vars minimal_cover

/-- `is_tautology` (lines 385-411). -/
def is_tautology (e : Expr) : Bool :=
  match Variables.from_expr e with
  | .ok vars =>
      let num_vars := vars.length
      if num_vars = 0 then false
      else
        (List.range (1 <<< num_vars)).all fun i =>
          evaluate_expression e (qmAssignment vars num_vars i)
  | .error _ => false

/-- `is_contradiction` (lines 414-440). -/
def is_contradiction (e : Expr) : Bool :=
  match Variables.from_expr e with
  | .ok vars =>
      let num_vars := vars.length
      if num_vars = 0 then false
      else
        (List.range (1 <<< num_vars)).all fun i =>
          !(evaluate_expression e (qmAssignment vars num_vars i))
  | .error _ => false

/-- `expressions_equivalent_structure` (lines 443-455). -/
def expressions_equivalent_structure : Expr → Expr → Bool
  | .Identifier a, .Identifier b => a == b
  | .Not a, .Not b => expressions_equivalent_structure a b
  | .And a1 a2, .And b1 b2 =>
      expressions_equivalent_structure a1 b1 && expressions_equivalent_structure a2 b2
  | .Or a1 a2, .Or b1 b2 =>
      expressions_equivalent_structure a1 b1 && expressions_equivalent_structure a2 b2
  | .Xor a1 a2, .Xor b1 b2 =>
      expressions_equivalent_structure a1 b1 && expressions_equivalent_structure a2 b2
  | .Implication a1 a2, .Implication b1 b2 =>
      expressions_equivalent_structure a1 b1 && expressions_equivalent_structure a2 b2
  | _, _ => false

/-- `reduce_expression` (lines 331-382); `QuineMcCluskey::from_expression`
is `Variables.from_expr` plus `onSet`. -/
def reduce_expression (e : Expr) : Except EvaluationError Reduction :=
  if is_tautology e then
    .ok ⟨e, trueSentinel, true⟩
  else if is_contradiction e then
    .ok ⟨e, falseSentinel, true⟩
  else
    match Variables.from_expr e with
    | .ok vars =>
        match minimize vars (onSet e vars) with
        | some reduced_expr =>
            .ok ⟨e, reduced_expr, !(expressions_equivalent_structure e reduced_expr)⟩
        | none => .ok ⟨e, e, false⟩
    | .error err => .error err

/-- The MSB-first value vector of row index `i` over `n` variables: position
`j` holds bit `n - 1 - j` of `i` (the mapping used by `Minterm::new` and
`qmAssignment`). -/
def valsOf (n i : Nat) : List Bool :=
  (List.range n).map fun j => Nat.testBit i (n - 1 - j)

/-- MSB-first decoding of a value vector into a row index. -/
def ofBitsMSB (vs : List Bool) : Nat :=
  vs.foldl (fun acc b => 2 * acc + (if b then 1 else 0)) 0

/-! ### Matching literal vectors against value vectors -/

/-- Does a literal vector match a value vector?  This characterizes which
rows an implicant covers. -/
def matchesL : List (Option Bool) → List Bool → Bool
  | [], [] => true
  | some b :: rest, v :: vs => (v == b) && matchesL rest vs
  | none :: rest, _ :: vs => matchesL rest vs
  | _, _ => false

/-- Number of fully-specified positions of a literal vector. -/
def someCount (bits : List (Option Bool)) : Nat :=
  (bits.filter fun ob => ob.isSome).length

/-! ### The Quine-McCluskey pipeline invariant -/

/-- Invariant carried by every implicant in the pipeline over `n` variables
with ON-set `onset`: the literal vector has length `n`, the covered set is
exactly the set of row indices whose value vector matches the literal
vector, and every covered row is in the ON-set. -/
def GoodImp (n : Nat) (onset : List Nat) (m : Minterm) : Prop :=
  m.bits.length = n ∧
  (∀ i, i ∈ m.covered_minterms ↔ i < 2 ^ n ∧ matchesL m.bits (valsOf n i) = true) ∧
  (∀ i, i ∈ m.covered_minterms → i ∈ onset)

/-! ### Spec-modelled definitions and concrete inputs for the claims -/

/-- Modelled from the spec: the structural comparison the spec describes for
the `simplified` flag, "treats each binary operator as commutative".  The
source's `expressions_equivalent_structure` does not implement the
commutative exception; this definition follows the spec's words so the two
can be compared. -/
def structEqCommSpec : Expr → Expr → Bool
  | .Identifier a, .Identifier b => a == b
  | .Not a, .Not b => structEqCommSpec a b
  | .And a1 a2, .And b1 b2 =>
      (structEqCommSpec a1 b1 && structEqCommSpec a2 b2) ||
      (structEqCommSpec a1 b2 && structEqCommSpec a2 b1)
  | .Or a1 a2, .Or b1 b2 =>
      (structEqCommSpec a1 b1 && structEqCommSpec a2 b2) ||
      (structEqCommSpec a1 b2 && structEqCommSpec a2 b1)
  | .Xor a1 a2, .Xor b1 b2 =>
      (structEqCommSpec a1 b1 && structEqCommSpec a2 b2) ||
      (structEqCommSpec a1 b2 && structEqCommSpec a2 b1)
  | .Implication a1 a2, .Implication b1 b2 =>
      (structEqCommSpec a1 b1 && structEqCommSpec a2 b2) ||
      (structEqCommSpec a1 b2 && structEqCommSpec a2 b1)
  | _, _ => false

/-- Left-nested conjunction of an expression with a list of identifiers, used
to build concrete test trees. -/
def andChain (acc : Expr) (names : List String) : Expr :=
  names.foldl (fun a n => Expr.And a (.Identifier n)) acc

/-- A tree with exactly the 20 distinct single-letter variables a .. t. -/
def tree20 : Expr :=
  andChain (.Identifier "a")
    ["b", "c", "d", "e", "f", "g", "h", "i", "j",
     "k", "l", "m", "n", "o", "p", "q", "r", "s", "t"]

/-- A tree with the 21 distinct single-letter variables a .. u. -/
def tree21 : Expr :=
  andChain (.Identifier "a")
    ["b", "c", "d", "e", "f", "g", "h", "i", "j",
     "k", "l", "m", "n", "o", "p", "q", "r", "s", "t", "u"]

/-- `tree21` followed by a leaf with the invalid name "a-b": the 21st distinct
name is reached before the invalid leaf is ever visited. -/
def tree22 : Expr := Expr.And tree21 (.Identifier "a-b")

theorem evaluate_eq_evalF (e : Expr) (a : Assignment) :
    evaluate_expression e a = evalF e (fun name => a.get name) := by
  induction e with
  | Identifier name => rfl
  | Not inner ih => simp [evaluate_expression, evalF, ih]
  | And l r ihl ihr => simp [evaluate_expression, evalF, ihl, ihr]
  | Or l r ihl ihr => simp [evaluate_expression, evalF, ihl, ihr]
  | Xor l r ihl ihr => simp [evaluate_expression, evalF, ihl, ihr]
  | Implication l r ihl ihr => simp [evaluate_expression, evalF, ihl, ihr]

theorem identsList_ne_nil (e : Expr) : identsList e ≠ [] := by
  induction e with
  | Identifier name => simp [identsList]
  | Not inner ih => simpa [identsList] using ih
  | And l r ihl ihr => simp [identsList, ihl]
  | Or l r ihl ihr => simp [identsList, ihl]
  | Xor l r ihl ihr => simp [identsList, ihl]
  | Implication l r ihl ihr => simp [identsList, ihl]

/-- Valuations agreeing on every identifier of `e` give the same value. -/
theorem evalF_congr (e : Expr) (f g : String → Bool)
    (h : ∀ v ∈ identsList e, f v = g v) : evalF e f = evalF e g := by
  induction e with
  | Identifier name => exact h name (by simp [identsList])
  | Not inner ih => simp [evalF, ih (fun v hv => h v (by simpa [identsList] using hv))]
  | And l r ihl ihr =>
      simp [evalF, ihl (fun v hv => h v (by simp [identsList, hv])),
        ihr (fun v hv => h v (by simp [identsList, hv]))]
  | Or l r ihl ihr =>
      simp [evalF, ihl (fun v hv => h v (by simp [identsList, hv])),
        ihr (fun v hv => h v (by simp [identsList, hv]))]
  | Xor l r ihl ihr =>
      simp [evalF, ihl (fun v hv => h v (by simp [identsList, hv])),
        ihr (fun v hv => h v (by simp [identsList, hv]))]
  | Implication l r ihl ihr =>
      simp [evalF, ihl (fun v hv => h v (by simp [identsList, hv])),
        ihr (fun v hv => h v (by simp [identsList, hv]))]

theorem strLtAux_iff : ∀ (cs ds : List Char),
    strLtAux cs ds = true ↔ List.Lex (· < ·) cs ds := by
  intro cs
  induction cs with
  | nil =>
      intro ds
      cases ds with
      | nil =>
          constructor
          · intro h; cases h
          · intro h; cases h
      | cons d ds => exact ⟨fun _ => List.Lex.nil, fun _ => rfl⟩
  | cons c cs ih =>
      intro ds
      cases ds with
      | nil =>
          constructor
          · intro h; cases h
          · intro h; cases h
      | cons d ds =>
          by_cases h1 : c < d
          · refine ⟨fun _ => List.Lex.rel h1, fun _ => ?_⟩
            show strLtAux (c :: cs) (d :: ds) = true
            unfold strLtAux
            rw [if_pos h1]
          · by_cases h2 : d < c
            · constructor
              · intro h
                unfold strLtAux at h
                rw [if_neg h1, if_pos h2] at h
                cases h
              · intro h
                cases h with
                | cons h' => exact absurd h2 (lt_irrefl c)
                | rel h' => exact absurd h' h1
            · have hcd : c = d := le_antisymm (not_lt.mp h2) (not_lt.mp h1)
              subst hcd
              constructor
              · intro h
                unfold strLtAux at h
                rw [if_neg h1, if_neg h2] at h
                exact List.Lex.cons ((ih ds).mp h)
              · intro h
                have h' : List.Lex (· < ·) cs ds := by
                  cases h with
                  | cons h' => exact h'
                  | rel h' => exact absurd h' h1
                unfold strLtAux
                rw [if_neg h1, if_neg h2]
                exact (ih ds).mpr h'

theorem strLt_iff (x y : String) : strLt x y = true ↔ x < y := by
  rw [String.lt_iff_toList_lt]
  exact strLtAux_iff x.toList y.toList

theorem collectNames_append (vars : List String) (l₁ l₂ : List String) :
    collectNames vars (l₁ ++ l₂) =
      (collectNames vars l₁).bind (fun v => collectNames v l₂) := by
  induction l₁ generalizing vars with
  | nil => rfl
  | cons n ns ih =>
      by_cases hv : validName n
      · simp only [collectNames, hv, List.cons_append]
        by_cases hlen : (insertSorted n vars).length > MAX_VARIABLES
        · simp [hlen, Except.bind]
        · simp [hlen, ih]
      · simp [collectNames, hv, Except.bind]

theorem collect_eq_collectNames (e : Expr) (vars : List String) :
    collect_from_expr vars e = collectNames vars (identsList e) := by
  induction e generalizing vars with
  | Identifier name => rfl
  | Not inner ih => simpa [collect_from_expr, identsList] using ih vars
  | And l r ihl ihr =>
      simp only [collect_from_expr, identsList, collectNames_append, ihl, ihr]
      cases collectNames vars (identsList l) <;> rfl
  | Or l r ihl ihr =>
      simp only [collect_from_expr, identsList, collectNames_append, ihl, ihr]
      cases collectNames vars (identsList l) <;> rfl
  | Xor l r ihl ihr =>
      simp only [collect_from_expr, identsList, collectNames_append, ihl, ihr]
      cases collectNames vars (identsList l) <;> rfl
  | Implication l r ihl ihr =>
      simp only [collect_from_expr, identsList, collectNames_append, ihl, ihr]
      cases collectNames vars (identsList l) <;> rfl

/-! ### Properties of sorted insertion and variable collection -/

theorem insertSorted_nil (x : String) : insertSorted x [] = [x] := rfl

theorem insertSorted_cons_lt {x z : String} (zs : List String) (h : x < z) :
    insertSorted x (z :: zs) = x :: z :: zs := by
  unfold insertSorted; rw [if_pos ((strLt_iff x z).mpr h)]

theorem insertSorted_cons_eq {x : String} (zs : List String) :
    insertSorted x (x :: zs) = x :: zs := by
  unfold insertSorted
  rw [if_neg (fun hc => absurd ((strLt_iff x x).mp hc) (lt_irrefl x)), if_pos rfl]

theorem insertSorted_cons_gt {x z : String} (zs : List String) (h1 : ¬ x < z)
    (h2 : x ≠ z) : insertSorted x (z :: zs) = z :: insertSorted x zs := by
  conv_lhs => unfold insertSorted
  rw [if_neg (fun hc => absurd ((strLt_iff x z).mp hc) h1), if_neg h2]

theorem mem_insertSorted (x y : String) (l : List String) :
    y ∈ insertSorted x l ↔ y = x ∨ y ∈ l := by
  induction l with
  | nil => simp [insertSorted]
  | cons z zs ih =>
      by_cases h1 : x < z
      · rw [insertSorted_cons_lt zs h1]; simp
      · by_cases h2 : x = z
        · subst h2
          rw [insertSorted_cons_eq zs]
          simp only [List.mem_cons]
          tauto
        · rw [insertSorted_cons_gt zs h1 h2]
          simp only [List.mem_cons, ih]
          tauto

theorem sorted_insertSorted (x : String) (l : List String)
    (h : l.Sorted (· < ·)) : (insertSorted x l).Sorted (· < ·) := by
  induction l with
  | nil => simp [insertSorted]
  | cons z zs ih =>
      rw [List.sorted_cons] at h
      obtain ⟨hz, hzs⟩ := h
      by_cases h1 : x < z
      · rw [insertSorted_cons_lt zs h1, List.sorted_cons]
        refine ⟨?_, ?_⟩
        · intro b hb
          rcases List.mem_cons.mp hb with rfl | hb
          · exact h1
          · exact lt_trans h1 (hz b hb)
        · rw [List.sorted_cons]; exact ⟨hz, hzs⟩
      · by_cases h2 : x = z
        · subst h2
          rw [insertSorted_cons_eq zs, List.sorted_cons]
          exact ⟨hz, hzs⟩
        · rw [insertSorted_cons_gt zs h1 h2, List.sorted_cons]
          refine ⟨?_, ih hzs⟩
          intro b hb
          rcases (mem_insertSorted x b zs).mp hb with rfl | hb
          · exact lt_of_le_of_ne (not_lt.mp h1) (Ne.symm h2)
          · exact hz b hb

theorem length_insertSorted_le (x : String) (l : List String) :
    (insertSorted x l).length ≤ l.length + 1 := by
  induction l with
  | nil => simp [insertSorted]
  | cons z zs ih =>
      by_cases h1 : x < z
      · rw [insertSorted_cons_lt zs h1]; simp
      · by_cases h2 : x = z
        · subst h2; rw [insertSorted_cons_eq zs]; simp
        · rw [insertSorted_cons_gt zs h1 h2, List.length_cons, List.length_cons]
          omega

theorem le_length_insertSorted (x : String) (l : List String) :
    l.length ≤ (insertSorted x l).length := by
  induction l with
  | nil => simp [insertSorted]
  | cons z zs ih =>
      by_cases h1 : x < z
      · rw [insertSorted_cons_lt zs h1]; simp
      · by_cases h2 : x = z
        · subst h2; rw [insertSorted_cons_eq zs]
        · rw [insertSorted_cons_gt zs h1 h2, List.length_cons, List.length_cons]
          omega

theorem length_insertSorted_of_not_mem (x : String) (l : List String)
    (h : x ∉ l) : (insertSorted x l).length = l.length + 1 := by
  induction l with
  | nil => simp [insertSorted]
  | cons z zs ih =>
      have hxz : x ≠ z := fun hc => h (hc ▸ List.mem_cons_self x zs)
      by_cases h1 : x < z
      · rw [insertSorted_cons_lt zs h1]; simp
      · rw [insertSorted_cons_gt zs h1 hxz, List.length_cons, List.length_cons]
        rw [ih (fun hc => h (List.mem_cons_of_mem z hc))]

theorem insertSorted_eq_of_mem (x : String) (l : List String)
    (hs : l.Sorted (· < ·)) (h : x ∈ l) : insertSorted x l = l := by
  induction l with
  | nil => cases h
  | cons z zs ih =>
      rw [List.sorted_cons] at hs
      rcases List.mem_cons.mp h with rfl | hmem
      · exact insertSorted_cons_eq zs
      · have hzx : z < x := hs.1 x hmem
        have h1 : ¬ x < z := not_lt.mpr (le_of_lt hzx)
        have h2 : x ≠ z := fun hc => absurd (hc ▸ hzx) (lt_irrefl x)
        rw [insertSorted_cons_gt zs h1 h2, ih hs.2 hmem]

theorem mem_unionFold (vars ns : List String) (y : String) :
    y ∈ unionFold vars ns ↔ y ∈ vars ∨ y ∈ ns := by
  induction ns generalizing vars with
  | nil => simp [unionFold]
  | cons n ns ih =>
      simp only [unionFold, ih, mem_insertSorted, List.mem_cons]
      tauto

theorem sorted_unionFold (vars ns : List String) (h : vars.Sorted (· < ·)) :
    (unionFold vars ns).Sorted (· < ·) := by
  induction ns generalizing vars with
  | nil => exact h
  | cons n ns ih => exact ih _ (sorted_insertSorted n vars h)

theorem length_le_unionFold (vars ns : List String) :
    vars.length ≤ (unionFold vars ns).length := by
  induction ns generalizing vars with
  | nil => exact le_refl _
  | cons n ns ih => exact le_trans (le_length_insertSorted n vars) (ih _)

theorem collectNames_ok_of_valid (ns : List String) : ∀ vars,
    vars.Sorted (· < ·) → (∀ n ∈ ns, validName n) →
    (unionFold vars ns).length ≤ MAX_VARIABLES →
    collectNames vars ns = .ok (unionFold vars ns) := by
  induction ns with
  | nil => intro vars _ _ _; rfl
  | cons n ns ih =>
      intro vars hs hv hlen
      have hvn : validName n := hv n (List.mem_cons_self n ns)
      have hstep : unionFold vars (n :: ns) = unionFold (insertSorted n vars) ns := rfl
      have hsub : insertSorted n vars ⊆ unionFold (insertSorted n vars) ns := by
        intro y hy
        exact (mem_unionFold _ ns y).mpr (Or.inl hy)
      have hnd : (insertSorted n vars).Nodup :=
        (sorted_insertSorted n vars hs).nodup
      have hlen' : (insertSorted n vars).length ≤ MAX_VARIABLES :=
        le_trans (hnd.subperm hsub).length_le (hstep ▸ hlen)
      have hnot : ¬ (insertSorted n vars).length > MAX_VARIABLES := not_lt.mpr hlen'
      simp only [collectNames, hvn, Bool.not_true, Bool.false_eq_true, if_false, hnot,
        if_false]
      rw [hstep]
      exact ih _ (sorted_insertSorted n vars hs) (fun m hm => hv m (List.mem_cons_of_mem n hm))
        (hstep ▸ hlen)

theorem collectNames_ok_inv (ns : List String) : ∀ vars vs',
    collectNames vars ns = .ok vs' →
    (∀ n ∈ ns, validName n) ∧ vs' = unionFold vars ns ∧
      (vars.length ≤ MAX_VARIABLES → vs'.length ≤ MAX_VARIABLES) := by
  induction ns with
  | nil =>
      intro vars vs' h
      simp only [collectNames] at h
      cases h
      exact ⟨by simp, rfl, fun h => h⟩
  | cons n ns ih =>
      intro vars vs' h
      simp only [collectNames] at h
      by_cases hvn : validName n
      · simp only [hvn, Bool.not_true, Bool.false_eq_true, if_false] at h
        by_cases hlen : (insertSorted n vars).length > MAX_VARIABLES
        · simp [hlen] at h
        · simp only [hlen, if_false] at h
          obtain ⟨hvalid, heq, hbound⟩ := ih _ _ h
          refine ⟨?_, heq, fun _ => hbound (not_lt.mp hlen)⟩
          intro m hm
          rcases List.mem_cons.mp hm with rfl | hm
          · exact hvn
          · exact hvalid m hm
      · simp [hvn] at h

theorem collectNames_error_shape (ns : List String) : ∀ vars err,
    collectNames vars ns = .error err →
    (∃ n, err = .InvalidVariableName n) ∨ (∃ c m, err = .TooManyVariables c m) := by
  induction ns with
  | nil => intro vars err h; simp [collectNames] at h
  | cons n ns ih =>
      intro vars err h
      simp only [collectNames] at h
      by_cases hvn : validName n
      · simp only [hvn, Bool.not_true, Bool.false_eq_true, if_false] at h
        by_cases hlen : (insertSorted n vars).length > MAX_VARIABLES
        · simp only [hlen, if_true] at h
          cases h
          exact Or.inr ⟨_, _, rfl⟩
        · simp only [hlen, if_false] at h
          exact ih _ _ h
      · simp only [hvn] at h
        simp at h
        cases h
        exact Or.inl ⟨_, rfl⟩

theorem collectNames_split (pre rest vars : List String)
    (hs : vars.Sorted (· < ·)) (hv : ∀ n ∈ pre, validName n)
    (hlen : (unionFold vars pre).length ≤ MAX_VARIABLES) :
    collectNames vars (pre ++ rest) = collectNames (unionFold vars pre) rest := by
  rw [collectNames_append, collectNames_ok_of_valid pre vars hs hv hlen]
  rfl

theorem collectNames_err_invalid_iff (ns : List String) : ∀ vars name,
    vars.Sorted (· < ·) → vars.length ≤ MAX_VARIABLES →
    (collectNames vars ns = .error (.InvalidVariableName name) ↔
      ∃ pre suf, ns = pre ++ name :: suf ∧ (∀ m ∈ pre, validName m) ∧
        (unionFold vars pre).length ≤ MAX_VARIABLES ∧ ¬ validName name) := by
  induction ns with
  | nil =>
      intro vars name _ _
      constructor
      · intro h; simp [collectNames] at h
      · rintro ⟨pre, suf, h, -, -, -⟩
        exact absurd h (by simp)
  | cons n ns ih =>
      intro vars name hsorted hvlen
      by_cases hvn : validName n
      · by_cases hlen : (insertSorted n vars).length > MAX_VARIABLES
        · constructor
          · intro h
            simp only [collectNames, hvn, Bool.not_true, Bool.false_eq_true, if_false,
              hlen, if_true] at h
            cases h
          · rintro ⟨pre, suf, hsplit, hpre, hplen, hbad⟩
            cases pre with
            | nil =>
                simp only [List.nil_append, List.cons.injEq] at hsplit
                exact absurd hvn (hsplit.1 ▸ hbad)
            | cons p ps =>
                simp only [List.cons_append, List.cons.injEq] at hsplit
                obtain ⟨rfl, rfl⟩ := hsplit
                have h1 : (insertSorted n vars).length ≤
                    (unionFold (insertSorted n vars) ps).length :=
                  length_le_unionFold _ _
                have h2 : (unionFold vars (n :: ps)).length ≤ MAX_VARIABLES := hplen
                rw [show unionFold vars (n :: ps) = unionFold (insertSorted n vars) ps
                  from rfl] at h2
                omega
        · have hstep : collectNames vars (n :: ns) = collectNames (insertSorted n vars) ns := by
            simp only [collectNames, hvn, Bool.not_true, Bool.false_eq_true, if_false,
              hlen, if_false]
          rw [hstep, ih (insertSorted n vars) name (sorted_insertSorted n vars hsorted)
            (not_lt.mp hlen)]
          constructor
          · rintro ⟨pre, suf, rfl, hpre, hplen, hbad⟩
            refine ⟨n :: pre, suf, rfl, ?_, hplen, hbad⟩
            intro m hm
            rcases List.mem_cons.mp hm with rfl | hm
            · exact hvn
            · exact hpre m hm
          · rintro ⟨pre, suf, hsplit, hpre, hplen, hbad⟩
            cases pre with
            | nil =>
                simp only [List.nil_append, List.cons.injEq] at hsplit
                exact absurd hvn (hsplit.1 ▸ hbad)
            | cons p ps =>
                simp only [List.cons_append, List.cons.injEq] at hsplit
                obtain ⟨rfl, rfl⟩ := hsplit
                exact ⟨ps, suf, rfl, fun m hm => hpre m (List.mem_cons_of_mem _ hm),
                  hplen, hbad⟩
      · constructor
        · intro h
          simp only [collectNames, hvn, Bool.not_false, if_true] at h
          cases h
          exact ⟨[], ns, rfl, by simp, by simpa [unionFold] using hvlen, hvn⟩
        · rintro ⟨pre, suf, hsplit, hpre, hplen, hbad⟩
          cases pre with
          | nil =>
              simp only [List.nil_append, List.cons.injEq] at hsplit
              obtain ⟨rfl, rfl⟩ := hsplit
              simp [collectNames, hvn]
          | cons p ps =>
              simp only [List.cons_append, List.cons.injEq] at hsplit
              obtain ⟨rfl, rfl⟩ := hsplit
              exact absurd (hpre _ (List.mem_cons_self _ _)) hvn

theorem from_expr_ok_inv (e : Expr) (vs : List String)
    (h : Variables.from_expr e = .ok vs) :
    (∀ n ∈ identsList e, validName n) ∧ vs = unionFold [] (identsList e) ∧
      vs.length ≤ MAX_VARIABLES ∧ vs.Sorted (· < ·) ∧ vs ≠ [] := by
  rw [Variables.from_expr, collect_eq_collectNames] at h
  obtain ⟨hvalid, heq, hlen⟩ := collectNames_ok_inv (identsList e) [] vs h
  refine ⟨hvalid, heq, hlen (by simp [MAX_VARIABLES]), ?_, ?_⟩
  · rw [heq]; exact sorted_unionFold [] _ (by simp)
  · intro hnil
    obtain ⟨n, hn⟩ := List.exists_mem_of_ne_nil _ (identsList_ne_nil e)
    have : n ∈ vs := heq ▸ (mem_unionFold [] _ n).mpr (Or.inr hn)
    simp [hnil] at this

theorem from_expr_ok_of_valid (e : Expr)
    (hvalid : ∀ n ∈ identsList e, validName n)
    (hlen : (unionFold [] (identsList e)).length ≤ MAX_VARIABLES) :
    Variables.from_expr e = .ok (unionFold [] (identsList e)) := by
  rw [Variables.from_expr, collect_eq_collectNames]
  exact collectNames_ok_of_valid (identsList e) [] (by simp) hvalid hlen

theorem from_expr_mem_valid (e : Expr) (vs : List String)
    (h : Variables.from_expr e = .ok vs) : ∀ v ∈ vs, validName v := by
  obtain ⟨hvalid, heq, -, -, -⟩ := from_expr_ok_inv e vs h
  intro v hv
  rcases (mem_unionFold [] _ v).mp (heq ▸ hv) with hv' | hv'
  · cases hv'
  · exact hvalid v hv'

theorem from_expr_mem_iff (e : Expr) (vs : List String)
    (h : Variables.from_expr e = .ok vs) : ∀ v, v ∈ vs ↔ v ∈ identsList e := by
  obtain ⟨-, heq, -, -, -⟩ := from_expr_ok_inv e vs h
  intro v
  rw [heq, mem_unionFold]
  simp

theorem from_expr_error_shape (e : Expr) (err : EvaluationError)
    (h : Variables.from_expr e = .error err) :
    (∃ n, err = .InvalidVariableName n) ∨ (∃ c m, err = .TooManyVariables c m) := by
  rw [Variables.from_expr, collect_eq_collectNames] at h
  exact collectNames_error_shape (identsList e) [] err h

/-! ### Looking up enumerated assignments -/

theorem Assignment.get_cons_self {key : String} (b : Bool) (rest : Assignment) :
    Assignment.get ((key, b) :: rest) key = b := by
  unfold Assignment.get
  rw [List.find?_cons_of_pos]
  exact beq_self_eq_true key

theorem Assignment.get_cons_ne {key name : String} (b : Bool) (rest : Assignment)
    (h : (key == name) = false) :
    Assignment.get ((key, b) :: rest) name = Assignment.get rest name := by
  unfold Assignment.get
  rw [List.find?_cons_of_neg]
  simp [h]

theorem get_enumFrom_map (g : Nat → Bool) : ∀ (vars : List String), vars.Nodup →
    ∀ (k j : Nat) (hj : j < vars.length),
    Assignment.get ((vars.enumFrom k).map fun p => (p.2, g p.1)) (vars.get ⟨j, hj⟩) =
      g (k + j) := by
  intro vars
  induction vars with
  | nil => intro _ k j hj; exact absurd hj (Nat.not_lt_zero j)
  | cons v vs ih =>
      intro hnd k j hj
      rw [List.nodup_cons] at hnd
      cases j with
      | zero =>
          show Assignment.get
            ((v, g k) :: (vs.enumFrom (k + 1)).map fun p => (p.2, g p.1)) v = g (k + 0)
          rw [Assignment.get_cons_self]
          rfl
      | succ j =>
          have hj' : j < vs.length := Nat.lt_of_succ_lt_succ hj
          have hne : (v == vs.get ⟨j, hj'⟩) = false := by
            rw [beq_eq_false_iff_ne]
            intro hc
            exact hnd.1 (hc ▸ vs.get_mem j hj')
          show Assignment.get
            ((v, g k) :: (vs.enumFrom (k + 1)).map fun p => (p.2, g p.1))
            (vs.get ⟨j, hj'⟩) = g (k + (j + 1))
          rw [Assignment.get_cons_ne _ _ hne, ih hnd.2 (k + 1) j hj']
          congr 1
          omega

theorem get_rowAssignment (vars : List String) (i : Nat) (hnd : vars.Nodup)
    (j : Nat) (hj : j < vars.length) :
    Assignment.get (rowAssignment vars i) (vars.get ⟨j, hj⟩) =
      ((i >>> j) &&& 1 == 1) := by
  have := get_enumFrom_map (fun idx => ((i >>> idx) &&& 1 == 1)) vars hnd 0 j hj
  simpa [rowAssignment, List.enum] using this

/-! ### MSB-first row encoding -/

theorem bitget_eq_testBit (i k : Nat) : ((i >>> k) &&& 1 == 1) = Nat.testBit i k := by
  rw [Nat.testBit_to_div_mod, Nat.and_one_is_mod, Nat.shiftRight_eq_div_pow]
  by_cases h : i / 2 ^ k % 2 = 1 <;> simp [h]

theorem length_valsOf (n i : Nat) : (valsOf n i).length = n := by
  simp [valsOf]

theorem ofBitsMSB_concat (vs : List Bool) (b : Bool) :
    ofBitsMSB (vs ++ [b]) = 2 * ofBitsMSB vs + (if b then 1 else 0) := by
  simp [ofBitsMSB, List.foldl_append]

theorem ofBitsMSB_lt (vs : List Bool) : ofBitsMSB vs < 2 ^ vs.length := by
  induction vs using List.reverseRecOn with
  | nil => simp [ofBitsMSB]
  | append_singleton vs b ih =>
      rw [ofBitsMSB_concat]
      rw [List.length_append, List.length_singleton, pow_succ]
      cases b <;> simp <;> omega

theorem valsOf_succ (n i : Nat) :
    valsOf (n + 1) i = valsOf n (i >>> 1) ++ [Nat.testBit i 0] := by
  rw [valsOf, List.range_succ, List.map_append]
  congr 1
  · rw [valsOf]
    apply List.map_congr_left
    intro j hj
    rw [List.mem_range] at hj
    have h1 : n + 1 - 1 - j = (n - 1 - j) + 1 := by omega
    rw [h1, Nat.testBit_succ, Nat.shiftRight_one]
  · simp

theorem valsOf_ofBitsMSB (vs : List Bool) : valsOf vs.length (ofBitsMSB vs) = vs := by
  induction vs using List.reverseRecOn with
  | nil => simp [valsOf]
  | append_singleton vs b ih =>
      rw [List.length_append, List.length_singleton, valsOf_succ, ofBitsMSB_concat]
      have h2 : (2 * ofBitsMSB vs + (if b then 1 else 0)) >>> 1 = ofBitsMSB vs := by
        rw [Nat.shiftRight_one]
        cases b <;> simp <;> omega
      have h3 : Nat.testBit (2 * ofBitsMSB vs + (if b then 1 else 0)) 0 = b := by
        rw [Nat.testBit_zero]
        cases b <;> simp <;> omega
      rw [h2, h3, ih]

theorem valsOf_getElem (n i j : Nat) (hj : j < n) :
    (valsOf n i).get ⟨j, by simpa [length_valsOf] using hj⟩ = Nat.testBit i (n - 1 - j) := by
  simp [valsOf]

theorem valsOf_inj (n i i' : Nat) (hi : i < 2 ^ n) (hi' : i' < 2 ^ n)
    (h : valsOf n i = valsOf n i') : i = i' := by
  apply Nat.eq_of_testBit_eq
  intro k
  by_cases hk : k < n
  · have hj : n - 1 - k < n := by omega
    have hjk : n - 1 - (n - 1 - k) = k := by omega
    have h1 := valsOf_getElem n i (n - 1 - k) hj
    have h2 := valsOf_getElem n i' (n - 1 - k) hj
    rw [hjk] at h1 h2
    rw [← h1, ← h2]
    simp only [List.get_eq_getElem]
    exact List.getElem_of_eq h _
  · have h1 : i < 2 ^ k := lt_of_lt_of_le hi (Nat.pow_le_pow_right (by norm_num) (by omega))
    have h2 : i' < 2 ^ k := lt_of_lt_of_le hi' (Nat.pow_le_pow_right (by norm_num) (by omega))
    rw [Nat.testBit_eq_false_of_lt h1, Nat.testBit_eq_false_of_lt h2]

theorem matchesL_map_some (vs : List Bool) : ∀ ws : List Bool,
    matchesL (vs.map some) ws = true ↔ ws = vs := by
  induction vs with
  | nil =>
      intro ws
      cases ws with
      | nil => simp [matchesL]
      | cons w ws => simp [matchesL]
  | cons v vs ih =>
      intro ws
      cases ws with
      | nil => simp [matchesL]
      | cons w ws =>
          simp only [List.map_cons, matchesL, Bool.and_eq_true, beq_iff_eq, ih,
            List.cons.injEq]

/-! ### Characterization of `combineBits` -/

theorem combineBits_lengths : ∀ (ta tb rest : List (Option Bool)) (d : Nat),
    combineBits ta tb = some (rest, d) →
    ta.length = tb.length ∧ rest.length = ta.length := by
  intro ta
  induction ta with
  | nil =>
      intro tb rest d h
      cases tb with
      | nil => simp [combineBits] at h; simp [h.1.symm]
      | cons ob tb => simp [combineBits] at h
  | cons oa ta ih =>
      intro tb rest d h
      cases tb with
      | nil => simp [combineBits] at h
      | cons ob tb =>
          simp only [combineBits] at h
          cases hrec : combineBits ta tb with
          | none => rw [hrec] at h; cases h
          | some p =>
              rw [hrec] at h
              obtain ⟨rest', d'⟩ := p
              obtain ⟨h1, h2⟩ := ih tb rest' d' hrec
              cases oa with
              | none =>
                  cases ob with
                  | none =>
                      simp at h
                      obtain ⟨hr, -⟩ := h
                      simp [← hr, h1, h2]
                  | some b => simp at h
              | some a =>
                  cases ob with
                  | none => simp at h
                  | some b =>
                      by_cases hab : a = b
                      · simp [hab] at h
                        obtain ⟨hr, -⟩ := h
                        simp [← hr, h1, h2]
                      · simp only [hab, if_false] at h
                        by_cases hd : d' + 1 > 1
                        · simp [hd] at h
                        · simp [hd] at h
                          obtain ⟨hr, -⟩ := h
                          simp [← hr, h1, h2]

theorem combineBits_diff_zero : ∀ (ta tb rest : List (Option Bool)),
    combineBits ta tb = some (rest, 0) → ta = tb ∧ rest = ta := by
  intro ta
  induction ta with
  | nil =>
      intro tb rest h
      cases tb with
      | nil => simp [combineBits] at h; simp [h.symm]
      | cons ob tb => simp [combineBits] at h
  | cons oa ta ih =>
      intro tb rest h
      cases tb with
      | nil => simp [combineBits] at h
      | cons ob tb =>
          simp only [combineBits] at h
          cases hrec : combineBits ta tb with
          | none => rw [hrec] at h; cases h
          | some p =>
              rw [hrec] at h
              obtain ⟨rest', d'⟩ := p
              cases oa with
              | none =>
                  cases ob with
                  | none =>
                      simp at h
                      obtain ⟨hr, hd⟩ := h
                      obtain ⟨he, hr'⟩ := ih tb rest' (by rw [hd] at hrec; exact hrec)
                      exact ⟨by rw [he], by rw [← hr, hr']⟩
                  | some b => simp at h
              | some a =>
                  cases ob with
                  | none => simp at h
                  | some b =>
                      by_cases hab : a = b
                      · subst hab
                        simp at h
                        obtain ⟨hr, hd⟩ := h
                        obtain ⟨he, hr'⟩ := ih tb rest' (by rw [hd] at hrec; exact hrec)
                        exact ⟨by rw [he], by rw [← hr, hr']⟩
                      · simp only [hab, if_false] at h
                        by_cases hd : d' + 1 > 1
                        · simp [hd] at h
                        · simp [hd] at h

theorem combineBits_diff_one_matches :
    ∀ (ta tb rest : List (Option Bool)),
    combineBits ta tb = some (rest, 1) → ∀ ws : List Bool,
    matchesL rest ws = (matchesL ta ws || matchesL tb ws) := by
  intro ta
  induction ta with
  | nil =>
      intro tb rest h
      cases tb with
      | nil => simp [combineBits] at h
      | cons ob tb => simp [combineBits] at h
  | cons oa ta ih =>
      intro tb rest h ws
      cases tb with
      | nil => simp [combineBits] at h
      | cons ob tb =>
          simp only [combineBits] at h
          cases hrec : combineBits ta tb with
          | none => rw [hrec] at h; cases h
          | some p =>
              rw [hrec] at h
              obtain ⟨rest', d'⟩ := p
              cases oa with
              | none =>
                  cases ob with
                  | none =>
                      simp at h
                      obtain ⟨hr, hd⟩ := h
                      subst hd
                      have hm := ih tb rest' hrec
                      cases ws with
                      | nil => rw [← hr]; simp [matchesL]
                      | cons w ws =>
                          rw [← hr]
                          simp only [matchesL, hm ws]
                  | some b => simp at h
              | some a =>
                  cases ob with
                  | none => simp at h
                  | some b =>
                      by_cases hab : a = b
                      · subst hab
                        simp at h
                        obtain ⟨hr, hd⟩ := h
                        subst hd
                        have hm := ih tb rest' hrec
                        cases ws with
                        | nil => rw [← hr]; simp [matchesL]
                        | cons w ws =>
                            rw [← hr]
                            simp only [matchesL, hm ws, Bool.and_or_distrib_left]
                      · simp only [hab, if_false] at h
                        by_cases hd : d' + 1 > 1
                        · simp [hd] at h
                        · simp [hd] at h
                          obtain ⟨hr, hd'⟩ := h
                          have hd0 : d' = 0 := by omega
                          subst hd0
                          obtain ⟨he, hre⟩ := combineBits_diff_zero ta tb rest' hrec
                          subst he
                          cases ws with
                          | nil => rw [← hr]; simp [matchesL]
                          | cons w ws =>
                              rw [← hr]
                              simp only [matchesL, hre]
                              have hb : b = !a := by
                                cases a <;> cases b <;> simp_all
                              subst hb
                              cases w <;> cases a <;> simp [matchesL]

theorem combineBits_someCount : ∀ (ta tb rest : List (Option Bool)) (d : Nat),
    combineBits ta tb = some (rest, d) → someCount rest + d = someCount ta := by
  intro ta
  induction ta with
  | nil =>
      intro tb rest d h
      cases tb with
      | nil => simp [combineBits] at h; obtain ⟨h1, h2⟩ := h; simp [← h1, ← h2]
      | cons ob tb => simp [combineBits] at h
  | cons oa ta ih =>
      intro tb rest d h
      cases tb with
      | nil => simp [combineBits] at h
      | cons ob tb =>
          simp only [combineBits] at h
          cases hrec : combineBits ta tb with
          | none => rw [hrec] at h; cases h
          | some p =>
              rw [hrec] at h
              obtain ⟨rest', d'⟩ := p
              have hc := ih tb rest' d' hrec
              cases oa with
              | none =>
                  cases ob with
                  | none =>
                      simp at h
                      obtain ⟨hr, hd⟩ := h
                      subst hd
                      rw [← hr]
                      simpa [someCount] using hc
                  | some b => simp at h
              | some a =>
                  cases ob with
                  | none => simp at h
                  | some b =>
                      by_cases hab : a = b
                      · subst hab
                        simp at h
                        obtain ⟨hr, hd⟩ := h
                        subst hd
                        rw [← hr]
                        simp only [someCount, List.filter_cons, Option.isSome_some,
                          if_true, List.length_cons] at *
                        omega
                      · simp only [hab, if_false] at h
                        by_cases hd : d' + 1 > 1
                        · simp [hd] at h
                        · simp [hd] at h
                          obtain ⟨hr, hd'⟩ := h
                          rw [← hr, ← hd']
                          simp only [someCount, List.filter_cons, Option.isSome_none,
                            Option.isSome_some, if_true, List.length_cons] at *
                          simp only [Bool.false_eq_true, if_false]
                          omega

/-! ### Membership facts for the covered-minterm sets and sorting -/

theorem insertSortedNat_cons_lt {x z : Nat} (zs : List Nat) (h : x < z) :
    insertSortedNat x (z :: zs) = x :: z :: zs := by
  unfold insertSortedNat; rw [if_pos h]

theorem insertSortedNat_cons_eq {x : Nat} (zs : List Nat) :
    insertSortedNat x (x :: zs) = x :: zs := by
  unfold insertSortedNat; rw [if_neg (lt_irrefl x), if_pos rfl]

theorem insertSortedNat_cons_gt {x z : Nat} (zs : List Nat) (h1 : ¬ x < z)
    (h2 : x ≠ z) : insertSortedNat x (z :: zs) = z :: insertSortedNat x zs := by
  conv_lhs => unfold insertSortedNat
  rw [if_neg h1, if_neg h2]

theorem mem_insertSortedNat (x y : Nat) (l : List Nat) :
    y ∈ insertSortedNat x l ↔ y = x ∨ y ∈ l := by
  induction l with
  | nil => simp [insertSortedNat]
  | cons z zs ih =>
      by_cases h1 : x < z
      · rw [insertSortedNat_cons_lt zs h1]; simp
      · by_cases h2 : x = z
        · subst h2
          rw [insertSortedNat_cons_eq zs]
          simp only [List.mem_cons]
          tauto
        · rw [insertSortedNat_cons_gt zs h1 h2]
          simp only [List.mem_cons, ih]
          tauto

theorem mem_unionNat (a b : List Nat) (y : Nat) :
    y ∈ unionNat a b ↔ y ∈ a ∨ y ∈ b := by
  induction b generalizing a with
  | nil => simp [unionNat]
  | cons x b ih =>
      have hstep : unionNat a (x :: b) = unionNat (insertSortedNat x a) b := rfl
      rw [hstep, ih, mem_insertSortedNat]
      simp only [List.mem_cons]
      tauto

theorem mem_insertByBits (x y : Minterm) (l : List Minterm) :
    y ∈ insertByBits x l ↔ y = x ∨ y ∈ l := by
  induction l with
  | nil => simp [insertByBits]
  | cons z zs ih =>
      by_cases h : bitsLt x.bits z.bits
      · simp only [insertByBits, if_pos h, List.mem_cons]
      · simp only [insertByBits, if_neg h, List.mem_cons, ih]
        tauto

theorem mem_sortByBits (l : List Minterm) (y : Minterm) :
    y ∈ sortByBits l ↔ y ∈ l := by
  have key : ∀ (l acc : List Minterm) (y : Minterm),
      y ∈ l.foldl (fun acc x => insertByBits x acc) acc ↔ y ∈ acc ∨ y ∈ l := by
    intro l
    induction l with
    | nil => intro acc y; simp
    | cons x l ih =>
        intro acc y
        rw [List.foldl_cons, ih, mem_insertByBits]
        simp only [List.mem_cons]
        tauto
  rw [sortByBits, key]
  simp

theorem mem_dedupAdj : ∀ (l : List Minterm) (x : Minterm), x ∈ dedupAdj l ↔ x ∈ l
  | [], x => by simp [dedupAdj]
  | [y], x => by simp [dedupAdj]
  | y :: z :: rest, x => by
      by_cases h : y = z
      · rw [dedupAdj, if_pos h, mem_dedupAdj (z :: rest) x]
        subst h
        simp only [List.mem_cons]
        tauto
      · rw [dedupAdj, if_neg h]
        simp only [List.mem_cons, mem_dedupAdj (z :: rest) x]

/-! ### Characterization of `Minterm.combine` -/

theorem Minterm.combine_spec {m other c : Minterm} (h : m.combine other = some c) :
    c.bits.length = m.bits.length ∧ m.bits.length = other.bits.length ∧
    (∀ ws, matchesL c.bits ws = (matchesL m.bits ws || matchesL other.bits ws)) ∧
    (∀ i, i ∈ c.covered_minterms ↔ i ∈ m.covered_minterms ∨ i ∈ other.covered_minterms) ∧
    someCount c.bits + 1 = someCount m.bits := by
  unfold Minterm.combine at h
  by_cases hlen : m.bits.length ≠ other.bits.length
  · simp [hlen] at h
  · simp only [hlen, if_false] at h
    cases hcb : combineBits m.bits other.bits with
    | none => rw [hcb] at h; cases h
    | some p =>
        rw [hcb] at h
        obtain ⟨cb, d⟩ := p
        by_cases hd : d = 1
        · subst hd
          simp only [if_pos rfl] at h
          cases h
          obtain ⟨hl1, hl2⟩ := combineBits_lengths _ _ _ _ hcb
          refine ⟨hl2, hl1, ?_, ?_, ?_⟩
          · exact combineBits_diff_one_matches _ _ _ hcb
          · intro i
            exact mem_unionNat _ _ i
          · have := combineBits_someCount _ _ _ _ hcb
            show someCount cb + 1 = someCount m.bits
            omega
        · simp [hd] at h

theorem Minterm.new_bits (idx n : Nat) :
    (Minterm.new idx n).bits = (valsOf n idx).map some := by
  simp only [Minterm.new, valsOf, List.map_map]
  apply List.map_congr_left
  intro j hj
  show some ((idx >>> (n - 1 - j)) &&& 1 == 1) = some (Nat.testBit idx (n - 1 - j))
  rw [bitget_eq_testBit]

theorem GoodImp_new (n : Nat) (onset : List Nat) (idx : Nat) (hidx : idx < 2 ^ n)
    (hmem : idx ∈ onset) : GoodImp n onset (Minterm.new idx n) := by
  refine ⟨by simp [Minterm.new], ?_, ?_⟩
  · intro i
    have hcov : (Minterm.new idx n).covered_minterms = [idx] := rfl
    rw [hcov, List.mem_singleton, Minterm.new_bits]
    constructor
    · rintro rfl
      refine ⟨hidx, ?_⟩
      rw [matchesL_map_some]
    · rintro ⟨hi, hm⟩
      rw [matchesL_map_some] at hm
      exact valsOf_inj n i idx hi hidx hm
  · intro i hi
    have hcov : (Minterm.new idx n).covered_minterms = [idx] := rfl
    rw [hcov, List.mem_singleton] at hi
    subst hi
    exact hmem

theorem GoodImp_combine {n : Nat} {onset : List Nat} {a b c : Minterm}
    (ha : GoodImp n onset a) (hb : GoodImp n onset b)
    (h : a.combine b = some c) : GoodImp n onset c := by
  obtain ⟨hlen, -, hmatch, hcov, -⟩ := Minterm.combine_spec h
  refine ⟨by rw [hlen, ha.1], ?_, ?_⟩
  · intro i
    rw [hcov i, ha.2.1 i, hb.2.1 i]
    constructor
    · rintro (⟨hi, hm⟩ | ⟨hi, hm⟩) <;>
        exact ⟨hi, by rw [hmatch]; simp [hm]⟩
    · rintro ⟨hi, hm⟩
      rw [hmatch, Bool.or_eq_true] at hm
      rcases hm with hm | hm
      · exact Or.inl ⟨hi, hm⟩
      · exact Or.inr ⟨hi, hm⟩
  · intro i hi
    rcases (hcov i).mp hi with h' | h'
    · exact ha.2.2 i h'
    · exact hb.2.2 i h'

/-! ### Round lemmas for `find_prime_implicants` -/

theorem roundPairs_bounds (cur : List Minterm) (p : Nat × Nat)
    (hp : p ∈ roundPairs cur) : p.1 < cur.length ∧ p.2 < cur.length := by
  simp only [roundPairs, List.mem_flatMap, List.mem_map, List.mem_filter,
    List.mem_range] at hp
  obtain ⟨oc, -, i, ⟨hi, -⟩, j, ⟨hj, -⟩, hpeq⟩ := hp
  rw [← hpeq]
  exact ⟨hi, hj⟩

theorem roundNextRaw_mem {cur : List Minterm} {c : Minterm}
    (h : c ∈ roundNextRaw cur) :
    ∃ i j, i < cur.length ∧ j < cur.length ∧
      (cur.getD i default).combine (cur.getD j default) = some c := by
  simp only [roundNextRaw, List.mem_filterMap] at h
  obtain ⟨p, hp, hc⟩ := h
  obtain ⟨h1, h2⟩ := roundPairs_bounds cur p hp
  exact ⟨p.1, p.2, h1, h2, hc⟩

theorem roundNext_mem_iff (cur : List Minterm) (c : Minterm) :
    c ∈ roundNext cur ↔ c ∈ roundNextRaw cur := by
  rw [roundNext, mem_dedupAdj, mem_sortByBits]

theorem roundPrimes_mem {cur : List Minterm} {m : Minterm}
    (h : m ∈ roundPrimes cur) : m ∈ cur := by
  simp only [roundPrimes, List.mem_map, List.mem_filter, List.mem_range] at h
  obtain ⟨k, ⟨hk, -⟩, hm⟩ := h
  rw [← hm, List.getD_eq_getElem _ _ hk]
  exact List.getElem_mem hk

theorem getD_mem {cur : List Minterm} {k : Nat} (hk : k < cur.length) :
    cur.getD k default ∈ cur := by
  rw [List.getD_eq_getElem _ _ hk]
  exact List.getElem_mem hk

theorem round_coverage (cur : List Minterm) (k : Nat) (hk : k < cur.length)
    (x : Nat) (hx : x ∈ (cur.getD k default).covered_minterms) :
    (∃ m ∈ roundPrimes cur, x ∈ m.covered_minterms) ∨
    (∃ m ∈ roundNext cur, x ∈ m.covered_minterms) := by
  by_cases hu : usedIdx cur k = true
  · right
    simp only [usedIdx, List.any_eq_true, Bool.and_eq_true, Bool.or_eq_true,
      beq_iff_eq] at hu
    obtain ⟨p, hp, hkp, hsome⟩ := hu
    obtain ⟨c, hc⟩ := Option.isSome_iff_exists.mp hsome
    obtain ⟨-, -, -, hcov, -⟩ := Minterm.combine_spec hc
    refine ⟨c, ?_, ?_⟩
    · rw [roundNext_mem_iff]
      exact List.mem_filterMap.mpr ⟨p, hp, hc⟩
    · rcases hkp with hkp | hkp
      · exact (hcov x).mpr (Or.inl (hkp ▸ hx))
      · exact (hcov x).mpr (Or.inr (hkp ▸ hx))
  · left
    refine ⟨cur.getD k default, ?_, hx⟩
    simp only [roundPrimes, List.mem_map, List.mem_filter, List.mem_range]
    exact ⟨k, ⟨hk, by simpa using hu⟩, rfl⟩

theorem roundNext_someCount {cur : List Minterm} {s : Nat}
    (hs : ∀ m ∈ cur, someCount m.bits ≤ s) :
    ∀ m ∈ roundNext cur, someCount m.bits + 1 ≤ s := by
  intro m hm
  rw [roundNext_mem_iff] at hm
  obtain ⟨i, j, hi, hj, hc⟩ := roundNextRaw_mem hm
  obtain ⟨-, -, -, -, hcount⟩ := Minterm.combine_spec hc
  have := hs _ (getD_mem hi)
  omega

theorem roundNext_nil_of_zero {cur : List Minterm}
    (hs : ∀ m ∈ cur, someCount m.bits ≤ 0) : roundNext cur = [] := by
  rw [List.eq_nil_iff_forall_not_mem]
  intro m hm
  have := roundNext_someCount hs m hm
  omega

/-! ### `findPIAux`: soundness, coverage, and fuel irrelevance -/

theorem findPIAux_nil (fuel : Nat) (acc : List Minterm) :
    findPIAux fuel acc [] = acc := by
  cases fuel <;> rfl

theorem findPIAux_cons (fuel : Nat) (acc : List Minterm) (c0 : Minterm)
    (cur' : List Minterm) :
    findPIAux (fuel + 1) acc (c0 :: cur') =
      findPIAux fuel (acc ++ roundPrimes (c0 :: cur')) (roundNext (c0 :: cur')) := by
  simp only [findPIAux]

theorem findPIAux_sound (P : Minterm → Prop)
    (hclosed : ∀ a b c, P a → P b → a.combine b = some c → P c) :
    ∀ (fuel : Nat) (acc cur : List Minterm),
    (∀ m ∈ cur, P m) → (∀ m ∈ acc, P m) →
    ∀ m ∈ findPIAux fuel acc cur, P m := by
  intro fuel
  induction fuel with
  | zero =>
      intro acc cur hcur hacc m hm
      cases cur with
      | nil => rw [findPIAux_nil] at hm; exact hacc m hm
      | cons c0 cur' => exact hacc m hm
  | succ fuel ih =>
      intro acc cur hcur hacc m hm
      cases cur with
      | nil => rw [findPIAux_nil] at hm; exact hacc m hm
      | cons c0 cur' =>
          rw [findPIAux_cons] at hm
          refine ih _ _ ?_ ?_ m hm
          · intro m' hm'
            rw [roundNext_mem_iff] at hm'
            obtain ⟨i, j, hi, hj, hc⟩ := roundNextRaw_mem hm'
            exact hclosed _ _ _ (hcur _ (getD_mem hi)) (hcur _ (getD_mem hj)) hc
          · intro m' hm'
            rcases List.mem_append.mp hm' with hm' | hm'
            · exact hacc m' hm'
            · exact hcur m' (roundPrimes_mem hm')

theorem findPIAux_coverage : ∀ (fuel s : Nat) (acc cur : List Minterm),
    s < fuel → (∀ m ∈ cur, someCount m.bits ≤ s) →
    ∀ x, ((∃ m ∈ cur, x ∈ m.covered_minterms) ∨ (∃ m ∈ acc, x ∈ m.covered_minterms)) →
    ∃ m ∈ findPIAux fuel acc cur, x ∈ m.covered_minterms := by
  intro fuel
  induction fuel with
  | zero => intro s acc cur h; omega
  | succ fuel ih =>
      intro s acc cur hsf hs x hx
      cases cur with
      | nil =>
          rw [findPIAux_nil]
          rcases hx with ⟨m, hm, -⟩ | hacc
          · cases hm
          · exact hacc
      | cons c0 cur' =>
          rw [findPIAux_cons]
          have hcover :
              (∃ m ∈ roundNext (c0 :: cur'), x ∈ m.covered_minterms) ∨
              (∃ m ∈ acc ++ roundPrimes (c0 :: cur'), x ∈ m.covered_minterms) := by
            rcases hx with ⟨m, hm, hxm⟩ | ⟨m, hm, hxm⟩
            · obtain ⟨k, hk, hkm⟩ := List.mem_iff_getElem.mp hm
              have hgd : (c0 :: cur').getD k default = m := by
                rw [List.getD_eq_getElem _ _ hk, hkm]
              rcases round_coverage (c0 :: cur') k hk x (by rw [hgd]; exact hxm) with
                ⟨m', hm', hxm'⟩ | ⟨m', hm', hxm'⟩
              · exact Or.inr ⟨m', List.mem_append.mpr (Or.inr hm'), hxm'⟩
              · exact Or.inl ⟨m', hm', hxm'⟩
            · exact Or.inr ⟨m, List.mem_append.mpr (Or.inl hm), hxm⟩
          by_cases hnil : roundNext (c0 :: cur') = []
          · rw [hnil, findPIAux_nil]
            rcases hcover with ⟨m, hm, -⟩ | hdone
            · rw [hnil] at hm; cases hm
            · exact hdone
          · obtain ⟨m0, hm0⟩ := List.exists_mem_of_ne_nil _ hnil
            have hs1 : 1 ≤ s := by
              have := roundNext_someCount hs m0 hm0
              omega
            refine ih (s - 1) _ _ (by omega) ?_ x ?_
            · intro m hm
              have := roundNext_someCount hs m hm
              omega
            · rcases hcover with h | h
              · exact Or.inl h
              · exact Or.inr h

theorem findPIAux_fuel_irrelevant : ∀ (s fuel fuel' : Nat) (acc cur : List Minterm),
    s < fuel → s < fuel' → (∀ m ∈ cur, someCount m.bits ≤ s) →
    findPIAux fuel acc cur = findPIAux fuel' acc cur := by
  intro s
  induction s with
  | zero =>
      intro fuel fuel' acc cur hf hf' hs
      cases cur with
      | nil => rw [findPIAux_nil, findPIAux_nil]
      | cons c0 cur' =>
          obtain ⟨f, rfl⟩ : ∃ f, fuel = f + 1 := ⟨fuel - 1, by omega⟩
          obtain ⟨f', rfl⟩ : ∃ f', fuel' = f' + 1 := ⟨fuel' - 1, by omega⟩
          rw [findPIAux_cons, findPIAux_cons, roundNext_nil_of_zero hs,
            findPIAux_nil, findPIAux_nil]
  | succ s ih =>
      intro fuel fuel' acc cur hf hf' hs
      cases cur with
      | nil => rw [findPIAux_nil, findPIAux_nil]
      | cons c0 cur' =>
          obtain ⟨f, rfl⟩ : ∃ f, fuel = f + 1 := ⟨fuel - 1, by omega⟩
          obtain ⟨f', rfl⟩ : ∃ f', fuel' = f' + 1 := ⟨fuel' - 1, by omega⟩
          rw [findPIAux_cons, findPIAux_cons]
          exact ih f f' _ _ (by omega) (by omega) (fun m hm => by
            have := roundNext_someCount hs m hm
            omega)

/-! ### Cover-phase lemmas -/

theorem coveredByAny_iff (sel : List Minterm) (x : Nat) :
    coveredByAny sel x = true ↔ ∃ m ∈ sel, x ∈ m.covered_minterms := by
  simp [coveredByAny, List.any_eq_true]

theorem coveredByAny_append (a b : List Minterm) (x : Nat) :
    coveredByAny (a ++ b) x = (coveredByAny a x || coveredByAny b x) := by
  simp [coveredByAny, List.any_append]

theorem mem_enum_iff (l : List Minterm) (p : Nat × Minterm) :
    p ∈ l.enum ↔ p.1 < l.length ∧ l.getD p.1 default = p.2 := by
  constructor
  · intro hp
    obtain ⟨k, hk, hkp⟩ := List.mem_iff_getElem.mp hp
    have hkl : k < l.length := by simpa using hk
    have hgk : l.enum.get ⟨k, hk⟩ = (k, l.get ⟨k, hkl⟩) := by
      simpa using List.getElem_enumFrom l 0 k hk
    rw [List.get_eq_getElem, List.get_eq_getElem] at hgk
    rw [hgk] at hkp
    rw [← hkp]
    exact ⟨hkl, by rw [List.getD_eq_getElem _ _ hkl]⟩
  · rintro ⟨hlt, hgd⟩
    obtain ⟨i, m⟩ := p
    simp only at hlt hgd
    have hke : i < l.enum.length := by simpa using hlt
    have hgk : l.enum.get ⟨i, hke⟩ = (i, l.get ⟨i, hlt⟩) := by
      simpa using List.getElem_enumFrom l 0 i hke
    rw [List.get_eq_getElem, List.get_eq_getElem] at hgk
    have hp : (i, m) = l.enum.get ⟨i, hke⟩ := by
      rw [List.get_eq_getElem, hgk, List.getD_eq_getElem _ _ hlt] at *
      rw [← hgd]
    rw [hp]
    exact List.get_mem _ _ _

theorem getElem_mem_eraseIdx {l : List Minterm} {idx k : Nat} (hk : k < l.length)
    (hne : k ≠ idx) : l.get ⟨k, hk⟩ ∈ l.eraseIdx idx := by
  rw [List.eraseIdx_eq_take_drop_succ]
  by_cases h : k < idx
  · apply List.mem_append_left
    have ht : k < (l.take idx).length := by
      rw [List.length_take]
      omega
    have heq : (l.take idx).get ⟨k, ht⟩ = l.get ⟨k, hk⟩ := by
      simp only [List.get_eq_getElem]
      exact List.getElem_take l
    rw [← heq]
    exact List.get_mem _ _ _
  · have hik : idx + 1 + (k - (idx + 1)) = k := by omega
    apply List.mem_append_right
    have hd : k - (idx + 1) < (l.drop (idx + 1)).length := by
      rw [List.length_drop]
      omega
    have hk2 : l.get ⟨k, hk⟩ = (l.drop (idx + 1)).get ⟨k - (idx + 1), hd⟩ := by
      have heq := List.getElem_drop' l (show idx + 1 + (k - (idx + 1)) < l.length by omega)
      simp only [List.get_eq_getElem]
      simpa [hik] using heq
    rw [hk2]
    exact List.get_mem _ _ _

theorem essentialStep_cases (available : List Minterm) (to_remove : List Nat)
    (minterm : Nat) :
    essentialStep available to_remove minterm = to_remove ∨
    ∃ idx m, (idx, m) ∈ available.enum ∧
      essentialStep available to_remove minterm = to_remove ++ [idx] := by
  have hss : essentialStep available to_remove minterm =
      match available.enum.filter (fun p => p.2.covered_minterms.contains minterm) with
      | [(idx, _)] => if to_remove.contains idx then to_remove else to_remove ++ [idx]
      | _ => to_remove := rfl
  rcases h : available.enum.filter
      (fun p => p.2.covered_minterms.contains minterm) with _ | ⟨⟨idx, m⟩, rest⟩
  · left; rw [hss, h]
  · cases rest with
    | nil =>
        by_cases hc : to_remove.contains idx
        · have hc' : idx ∈ to_remove := by simpa using hc
          left
          rw [hss, h]
          simp [hc']
        · have hc' : idx ∉ to_remove := by simpa using hc
          right
          refine ⟨idx, m, ?_, by rw [hss, h]; simp [hc']⟩
          have hmem : (idx, m) ∈ available.enum.filter
              (fun p => p.2.covered_minterms.contains minterm) := by
            rw [h]; exact List.mem_singleton_self _
          exact List.mem_of_mem_filter hmem
    | cons q rest' =>
        left
        rw [hss, h]

theorem essentialPass_lt (available : List Minterm) : ∀ (unc acc : List Nat),
    (∀ i ∈ acc, i < available.length) →
    ∀ i ∈ unc.foldl (essentialStep available) acc, i < available.length := by
  intro unc
  induction unc with
  | nil => intro acc hacc i hi; exact hacc i hi
  | cons u unc ih =>
      intro acc hacc i hi
      rw [List.foldl_cons] at hi
      refine ih _ ?_ i hi
      rcases essentialStep_cases available acc u with heq | ⟨idx, m, hmem, heq⟩
      · rw [heq]; exact hacc
      · rw [heq]
        intro j hj
        rcases List.mem_append.mp hj with hj | hj
        · exact hacc j hj
        · rw [List.mem_singleton] at hj
          subst hj
          exact ((mem_enum_iff _ _).mp hmem).1

theorem essentialPass_bound (available : List Minterm) (uncovered : List Nat) :
    ∀ i ∈ essentialPass available uncovered, i < available.length :=
  essentialPass_lt available uncovered [] (by simp)

theorem removeIndices_sub {l : List Minterm} {idxs : List Nat} {m : Minterm}
    (h : m ∈ removeIndices l idxs) : m ∈ l := by
  simp only [removeIndices, List.mem_map, List.mem_filter] at h
  obtain ⟨p, ⟨hp, -⟩, hm⟩ := h
  obtain ⟨hlt, hgd⟩ := (mem_enum_iff l p).mp hp
  rw [← hm, ← hgd]
  exact getD_mem hlt

theorem removeIndices_mem {l : List Minterm} {idxs : List Nat} {k : Nat}
    (hk : k < l.length) (hnot : idxs.contains k = false) :
    l.getD k default ∈ removeIndices l idxs := by
  simp only [removeIndices, List.mem_map, List.mem_filter]
  refine ⟨(k, l.getD k default), ⟨?_, ?_⟩, rfl⟩
  · exact (mem_enum_iff l _).mpr ⟨hk, rfl⟩
  · simpa using hnot

theorem essentialLoop_inv (primes : List Minterm) (minterms : List Nat) :
    ∀ (fuel : Nat) (available : List Minterm) (uncovered : List Nat)
      (selected : List Minterm),
    (∀ m ∈ available, m ∈ primes) →
    (∀ m ∈ selected, m ∈ primes) →
    (∀ x ∈ minterms, x ∈ uncovered ∨ coveredByAny selected x = true) →
    (∀ x ∈ uncovered, coveredByAny available x = true) →
    (∀ x ∈ uncovered, x ∈ minterms) →
    (∀ m ∈ (essentialLoop fuel available uncovered selected).1, m ∈ primes) ∧
    (∀ m ∈ (essentialLoop fuel available uncovered selected).2.2, m ∈ primes) ∧
    (∀ x ∈ minterms, x ∈ (essentialLoop fuel available uncovered selected).2.1 ∨
      coveredByAny (essentialLoop fuel available uncovered selected).2.2 x = true) ∧
    (∀ x ∈ (essentialLoop fuel available uncovered selected).2.1,
      coveredByAny (essentialLoop fuel available uncovered selected).1 x = true) ∧
    (∀ x ∈ (essentialLoop fuel available uncovered selected).2.1, x ∈ minterms) := by
  intro fuel
  induction fuel with
  | zero =>
      intro available uncovered selected h1 h2 h3 h4 h5
      rw [essentialLoop]
      exact ⟨h1, h2, h3, h4, h5⟩
  | succ fuel ih =>
      intro available uncovered selected h1 h2 h3 h4 h5
      rw [essentialLoop]
      by_cases hemp : (essentialPass available uncovered).isEmpty
      · rw [if_pos hemp]
        exact ⟨h1, h2, h3, h4, h5⟩
      · rw [if_neg hemp]
        apply ih
        · intro m hm
          exact h1 m (removeIndices_sub hm)
        · intro m hm
          rcases List.mem_append.mp hm with hm | hm
          · exact h2 m hm
          · obtain ⟨idx, hidx, rfl⟩ := List.mem_map.mp hm
            exact h1 _ (getD_mem (essentialPass_bound available uncovered idx hidx))
        · intro x hx
          rcases h3 x hx with hunc | hcov
          · by_cases hxcov : coveredByAny
                ((essentialPass available uncovered).map fun idx =>
                  available.getD idx default) x = true
            · right
              rw [coveredByAny_append, hxcov, Bool.or_true]
            · left
              exact List.mem_filter.mpr ⟨hunc, by simpa using hxcov⟩
          · right
            rw [coveredByAny_append, hcov, Bool.true_or]
        · intro x hx
          obtain ⟨hxu, hxnc⟩ := List.mem_filter.mp hx
          have hav := h4 x hxu
          rw [coveredByAny_iff] at hav
          obtain ⟨m, hm, hxm⟩ := hav
          obtain ⟨k, hk, hkm⟩ := List.mem_iff_getElem.mp hm
          by_cases hkin : (essentialPass available uncovered).contains k
          · exfalso
            have hcv : coveredByAny
                ((essentialPass available uncovered).map fun idx =>
                  available.getD idx default) x = true := by
              rw [coveredByAny_iff]
              refine ⟨available.getD k default,
                List.mem_map.mpr ⟨k, by simpa using hkin, rfl⟩, ?_⟩
              rw [List.getD_eq_getElem _ _ hk, hkm]
              exact hxm
            have hne := hxnc
            rw [hcv] at hne
            simp at hne
          · rw [coveredByAny_iff]
            refine ⟨available.getD k default,
              removeIndices_mem hk (by simpa using hkin), ?_⟩
            rw [List.getD_eq_getElem _ _ hk, hkm]
            exact hxm
        · intro x hx
          exact h5 x (List.mem_filter.mp hx).1

theorem maxByCoverCount_mem {available : List Minterm} {uncovered : List Nat}
    (h : available ≠ []) :
    ∃ idx m, maxByCoverCount available uncovered = some (idx, m) ∧
      idx < available.length ∧ available.getD idx default = m := by
  have key : ∀ (ps : List (Nat × Minterm)) (q : Nat × Minterm),
      ∃ r, ps.foldl
        (fun best p =>
          match best with
          | none => some p
          | some q =>
              if (p.2.covered_minterms.filter fun x => uncovered.contains x).length ≥
                  (q.2.covered_minterms.filter fun x => uncovered.contains x).length
              then some p else some q)
        (some q) = some r ∧ (r = q ∨ r ∈ ps) := by
    intro ps
    induction ps with
    | nil => intro q; exact ⟨q, rfl, Or.inl rfl⟩
    | cons p ps ih =>
        intro q
        rw [List.foldl_cons]
        by_cases hcmp : (p.2.covered_minterms.filter fun x => uncovered.contains x).length ≥
            (q.2.covered_minterms.filter fun x => uncovered.contains x).length
        · simp only [hcmp, if_true]
          obtain ⟨r, hr, hmem⟩ := ih p
          refine ⟨r, hr, ?_⟩
          rcases hmem with rfl | hmem
          · exact Or.inr (List.mem_cons_self _ _)
          · exact Or.inr (List.mem_cons_of_mem _ hmem)
        · simp only [hcmp, if_false]
          obtain ⟨r, hr, hmem⟩ := ih q
          refine ⟨r, hr, ?_⟩
          rcases hmem with rfl | hmem
          · exact Or.inl rfl
          · exact Or.inr (List.mem_cons_of_mem _ hmem)
  obtain ⟨e, es, hes⟩ : ∃ e es, available.enum = e :: es := by
    cases henum : available.enum with
    | nil =>
        exfalso
        have : available.enum.length = 0 := by rw [henum]; rfl
        rw [List.enum_length] at this
        exact h (List.length_eq_zero.mp this)
    | cons e es => exact ⟨e, es, rfl⟩
  have hstart : maxByCoverCount available uncovered =
      es.foldl
        (fun best p =>
          match best with
          | none => some p
          | some q =>
              if (p.2.covered_minterms.filter fun x => uncovered.contains x).length ≥
                  (q.2.covered_minterms.filter fun x => uncovered.contains x).length
              then some p else some q)
        (some e) := by
    rw [maxByCoverCount, hes, List.foldl_cons]
  obtain ⟨r, hr, hmem⟩ := key es e
  have hrenum : r ∈ available.enum := by
    rw [hes]
    rcases hmem with rfl | hmem
    · exact List.mem_cons_self _ _
    · exact List.mem_cons_of_mem _ hmem
  obtain ⟨hlt, hgd⟩ := (mem_enum_iff available r).mp hrenum
  exact ⟨r.1, r.2, by rw [hstart, hr], hlt, hgd⟩

theorem greedyLoop_props (primes : List Minterm) (minterms : List Nat) :
    ∀ (fuel : Nat) (available : List Minterm) (uncovered : List Nat)
      (selected : List Minterm),
    available.length < fuel →
    (∀ m ∈ available, m ∈ primes) →
    (∀ m ∈ selected, m ∈ primes) →
    (∀ x ∈ minterms, x ∈ uncovered ∨ coveredByAny selected x = true) →
    (∀ x ∈ uncovered, coveredByAny available x = true) →
    (∀ m ∈ greedyLoop fuel available uncovered selected, m ∈ primes) ∧
    (∀ x ∈ minterms, coveredByAny (greedyLoop fuel available uncovered selected) x = true) := by
  intro fuel
  induction fuel with
  | zero => intro available uncovered selected hlen; omega
  | succ fuel ih =>
      intro available uncovered selected hlen h1 h2 h3 h4
      rw [greedyLoop]
      by_cases hstop : uncovered.isEmpty || available.isEmpty
      · rw [if_pos hstop]
        refine ⟨h2, ?_⟩
        intro x hx
        rcases h3 x hx with hunc | hcov
        · exfalso
          rcases Bool.or_eq_true _ _ |>.mp hstop with hu | ha
          · rw [List.isEmpty_iff] at hu
            rw [hu] at hunc
            cases hunc
          · rw [List.isEmpty_iff] at ha
            have := h4 x hunc
            rw [ha] at this
            simp [coveredByAny] at this
        · exact hcov
      · rw [if_neg hstop]
        have hane : available ≠ [] := by
          intro hc
          apply hstop
          rw [hc]
          simp
        obtain ⟨idx, impl, hmax, hidx, hgd⟩ :=
          @maxByCoverCount_mem available uncovered hane
        rw [hmax]
        have hlen' : (available.eraseIdx idx).length < fuel := by
          rw [List.length_eraseIdx_of_lt hidx]
          omega
        apply ih _ _ _ hlen'
        · intro m hm
          exact h1 m (List.mem_of_mem_eraseIdx hm)
        · intro m hm
          rcases List.mem_append.mp hm with hm | hm
          · exact h2 m hm
          · rw [List.mem_singleton] at hm
            subst hm
            exact h1 _ (hgd ▸ getD_mem hidx)
        · intro x hx
          rcases h3 x hx with hunc | hcov
          · by_cases hxi : impl.covered_minterms.contains x
            · right
              rw [coveredByAny_append, Bool.or_eq_true]
              right
              rw [coveredByAny_iff]
              exact ⟨impl, List.mem_singleton_self _, by simpa using hxi⟩
            · left
              exact List.mem_filter.mpr ⟨hunc, by simpa using hxi⟩
          · right
            rw [coveredByAny_append, hcov, Bool.true_or]
        · intro x hx
          obtain ⟨hxu, hxni⟩ := List.mem_filter.mp hx
          have hav := h4 x hxu
          rw [coveredByAny_iff] at hav
          obtain ⟨m, hm, hxm⟩ := hav
          obtain ⟨k, hk, hkm⟩ := List.mem_iff_getElem.mp hm
          by_cases hkidx : k = idx
          · exfalso
            subst hkidx
            have him : m = impl := by
              rw [← hgd, List.getD_eq_getElem _ _ hk, hkm]
            rw [him] at hxm
            have : impl.covered_minterms.contains x = true := by simpa using hxm
            rw [this] at hxni
            simp at hxni
          · rw [coveredByAny_iff]
            refine ⟨m, ?_, hxm⟩
            rw [← hkm]
            exact getElem_mem_eraseIdx hk hkidx

theorem find_minimal_cover_props (minterms : List Nat) (primes : List Minterm)
    (hcov : ∀ x ∈ minterms, coveredByAny primes x = true) :
    (∀ m ∈ find_minimal_cover minterms primes, m ∈ primes) ∧
    (∀ x ∈ minterms, coveredByAny (find_minimal_cover minterms primes) x = true) := by
  rw [find_minimal_cover]
  by_cases hp : primes.isEmpty
  · rw [if_pos hp]
    rw [List.isEmpty_iff] at hp
    subst hp
    refine ⟨by simp, ?_⟩
    intro x hx
    have := hcov x hx
    simpa [coveredByAny] using this
  · rw [if_neg hp]
    obtain ⟨e1, e2, e3, e4, e5⟩ := essentialLoop_inv primes minterms
      (primes.length + 1) primes minterms []
      (fun m hm => hm) (by simp)
      (fun x hx => Or.inl hx) (fun x hx => hcov x hx) (fun x hx => hx)
    by_cases hu : (essentialLoop (primes.length + 1) primes minterms []).2.1.isEmpty
    · rw [if_pos hu]
      refine ⟨e2, ?_⟩
      intro x hx
      rcases e3 x hx with hunc | hc
      · rw [List.isEmpty_iff] at hu
        rw [hu] at hunc
        cases hunc
      · exact hc
    · rw [if_neg hu]
      exact greedyLoop_props primes minterms _ _ _ _ (by omega) e1 e2 e3 e4

/-! ### Semantics of the reconstructed expressions -/

theorem evalF_foldAnd (f : String → Bool) : ∀ (ts : List Expr) (t : Expr),
    evalF (ts.foldl (fun result term => Expr.And result term) t) f =
      (evalF t f && ts.all fun x => evalF x f) := by
  intro ts
  induction ts with
  | nil => intro t; simp
  | cons u ts ih =>
      intro t
      rw [List.foldl_cons, ih (Expr.And t u)]
      simp [evalF, Bool.and_assoc]

theorem evalF_foldOr (f : String → Bool) : ∀ (ts : List Expr) (t : Expr),
    evalF (ts.foldl (fun result term => Expr.Or result term) t) f =
      (evalF t f || ts.any fun x => evalF x f) := by
  intro ts
  induction ts with
  | nil => intro t; simp
  | cons u ts ih =>
      intro t
      rw [List.foldl_cons, ih (Expr.Or t u)]
      simp [evalF, Bool.or_assoc]

theorem idents_foldAnd : ∀ (ts : List Expr) (t : Expr) (v : String),
    v ∈ identsList (ts.foldl (fun result term => Expr.And result term) t) →
    v ∈ identsList t ∨ ∃ u ∈ ts, v ∈ identsList u := by
  intro ts
  induction ts with
  | nil => intro t v hv; exact Or.inl hv
  | cons u ts ih =>
      intro t v hv
      rcases ih (Expr.And t u) v hv with hv' | ⟨w, hw, hv'⟩
      · rcases List.mem_append.mp hv' with h | h
        · exact Or.inl h
        · exact Or.inr ⟨u, List.mem_cons_self _ _, h⟩
      · exact Or.inr ⟨w, List.mem_cons_of_mem _ hw, hv'⟩

theorem idents_foldOr : ∀ (ts : List Expr) (t : Expr) (v : String),
    v ∈ identsList (ts.foldl (fun result term => Expr.Or result term) t) →
    v ∈ identsList t ∨ ∃ u ∈ ts, v ∈ identsList u := by
  intro ts
  induction ts with
  | nil => intro t v hv; exact Or.inl hv
  | cons u ts ih =>
      intro t v hv
      rcases ih (Expr.Or t u) v hv with hv' | ⟨w, hw, hv'⟩
      · rcases List.mem_append.mp hv' with h | h
        · exact Or.inl h
        · exact Or.inr ⟨u, List.mem_cons_self _ _, h⟩
      · exact Or.inr ⟨w, List.mem_cons_of_mem _ hw, hv'⟩

theorem termsOf_all (f : String → Bool) : ∀ (bits : List (Option Bool)) (vars : List String),
    bits.length = vars.length →
    ((termsOf bits vars).all fun t => evalF t f) = matchesL bits (vars.map f) := by
  intro bits
  induction bits with
  | nil =>
      intro vars hlen
      cases vars with
      | nil => rfl
      | cons v vars => cases hlen
  | cons ob bits ih =>
      intro vars hlen
      cases vars with
      | nil => cases hlen
      | cons v vars =>
          have hlen' : bits.length = vars.length := by simpa using hlen
          cases ob with
          | none =>
              show ((termsOf bits vars).all fun t => evalF t f) =
                matchesL (none :: bits) (f v :: vars.map f)
              rw [ih vars hlen']
              rfl
          | some b =>
              cases b with
              | true =>
                  show ((Expr.Identifier v :: termsOf bits vars).all fun t => evalF t f) =
                    matchesL (some true :: bits) (f v :: vars.map f)
                  rw [List.all_cons, ih vars hlen']
                  show (evalF (Expr.Identifier v) f && _) = ((f v == true) && _)
                  congr 1
                  show f v = (f v == true)
                  cases f v <;> rfl
              | false =>
                  show ((Expr.Not (Expr.Identifier v) :: termsOf bits vars).all
                      fun t => evalF t f) =
                    matchesL (some false :: bits) (f v :: vars.map f)
                  rw [List.all_cons, ih vars hlen']
                  show (evalF (Expr.Not (Expr.Identifier v)) f && _) = ((f v == false) && _)
                  congr 1
                  show (!(f v)) = (f v == false)
                  cases f v <;> rfl

theorem termsOf_nil_iff : ∀ (bits : List (Option Bool)) (vars : List String),
    bits.length = vars.length → (termsOf bits vars = [] ↔ someCount bits = 0) := by
  intro bits
  induction bits with
  | nil =>
      intro vars hlen
      simp [termsOf, someCount]
  | cons ob bits ih =>
      intro vars hlen
      cases vars with
      | nil => cases hlen
      | cons v vars =>
          have hlen' : bits.length = vars.length := by simpa using hlen
          cases ob with
          | none =>
              show (termsOf bits vars = [] ↔ _)
              rw [ih vars hlen']
              simp [someCount, List.filter_cons]
          | some b =>
              cases b with
              | true =>
                  show (Expr.Identifier v :: termsOf bits vars = [] ↔ _)
                  simp [someCount, List.filter_cons]
              | false =>
                  show (Expr.Not (Expr.Identifier v) :: termsOf bits vars = [] ↔ _)
                  simp [someCount, List.filter_cons]

theorem termsOf_idents : ∀ (bits : List (Option Bool)) (vars : List String),
    ∀ t ∈ termsOf bits vars, ∀ v ∈ identsList t, v ∈ vars := by
  intro bits
  induction bits with
  | nil =>
      intro vars t ht
      simp [termsOf] at ht
  | cons ob bits ih =>
      intro vars t ht v hv
      cases vars with
      | nil => simp [termsOf] at ht
      | cons w vars =>
          have hstep : ∀ u, u ∈ termsOf bits vars → v ∈ identsList u → v ∈ w :: vars :=
            fun u hu hv' => List.mem_cons_of_mem _ (ih vars u hu v hv')
          cases ob with
          | none =>
              exact hstep t ht hv
          | some b =>
              cases b with
              | true =>
                  rcases List.mem_cons.mp ht with rfl | ht
                  · simp only [identsList, List.mem_singleton] at hv
                    subst hv
                    exact List.mem_cons_self _ _
                  · exact hstep t ht hv
              | false =>
                  rcases List.mem_cons.mp ht with rfl | ht
                  · simp only [identsList, List.mem_singleton] at hv
                    subst hv
                    exact List.mem_cons_self _ _
                  · exact hstep t ht hv

theorem to_expression_spec (m : Minterm) (vars : List String)
    (hlen : m.bits.length = vars.length) (hsome : someCount m.bits ≠ 0) :
    ∃ ex, m.to_expression vars = some ex ∧
      (∀ f, evalF ex f = matchesL m.bits (vars.map f)) ∧
      (∀ v ∈ identsList ex, v ∈ vars) := by
  cases hterms : termsOf m.bits vars with
  | nil => exact absurd ((termsOf_nil_iff m.bits vars hlen).mp hterms) hsome
  | cons t ts =>
      refine ⟨ts.foldl (fun result term => Expr.And result term) t, ?_, ?_, ?_⟩
      · rw [Minterm.to_expression, hterms]
      · intro f
        have h2 := termsOf_all f m.bits vars hlen
        rw [hterms, List.all_cons] at h2
        rw [evalF_foldAnd]
        exact h2
      · intro v hv
        rcases idents_foldAnd ts t v hv with hv' | ⟨u, hu, hv'⟩
        · exact termsOf_idents m.bits vars t (hterms ▸ List.mem_cons_self _ _) v hv'
        · exact termsOf_idents m.bits vars u (hterms ▸ List.mem_cons_of_mem _ hu) v hv'

theorem matchesL_all_none : ∀ (bits : List (Option Bool)),
    someCount bits = 0 → ∀ ws : List Bool, ws.length = bits.length →
    matchesL bits ws = true := by
  intro bits
  induction bits with
  | nil =>
      intro _ ws hws
      rw [List.length_eq_zero.mp hws]
      rfl
  | cons ob bits ih =>
      intro hsc ws hws
      cases ob with
      | some b =>
          exfalso
          simp [someCount, List.filter_cons] at hsc
      | none =>
          cases ws with
          | nil => cases hws
          | cons w ws =>
              show matchesL bits ws = true
              exact ih (by simpa [someCount, List.filter_cons] using hsc) ws
                (by simpa using hws)

theorem implicants_to_expression_spec (vars : List String) : ∀ (implicants : List Minterm),
    implicants ≠ [] →
    (∀ m ∈ implicants, someCount m.bits ≠ 0) →
    (∀ m ∈ implicants, m.bits.length = vars.length) →
    ∃ ex, implicants_to_expression vars implicants = some ex ∧
      (∀ f, evalF ex f = (implicants.any fun m => matchesL m.bits (vars.map f))) ∧
      (∀ v ∈ identsList ex, v ∈ vars) := by
  have key : ∀ (impls : List Minterm),
      (∀ m ∈ impls, someCount m.bits ≠ 0) →
      (∀ m ∈ impls, m.bits.length = vars.length) →
      ∃ terms, impls.filterMap (fun m => m.to_expression vars) = terms ∧
        terms.length = impls.length ∧
        (∀ f, (terms.any fun t => evalF t f) =
          (impls.any fun m => matchesL m.bits (vars.map f))) ∧
        (∀ t ∈ terms, ∀ v ∈ identsList t, v ∈ vars) := by
    intro impls
    induction impls with
    | nil => intro _ _; exact ⟨[], rfl, rfl, by simp, by simp⟩
    | cons m impls ih =>
        intro hsome hlen
        obtain ⟨ex, hex, hevalex, hidex⟩ := to_expression_spec m vars
          (hlen m (List.mem_cons_self _ _)) (hsome m (List.mem_cons_self _ _))
        obtain ⟨terms, hterms, htlen, hteval, htid⟩ := ih
          (fun m' hm' => hsome m' (List.mem_cons_of_mem _ hm'))
          (fun m' hm' => hlen m' (List.mem_cons_of_mem _ hm'))
        refine ⟨ex :: terms, ?_, by simp [htlen], ?_, ?_⟩
        · rw [List.filterMap_cons, hex, hterms]
        · intro f
          rw [List.any_cons, List.any_cons, hevalex f, hteval f]
        · intro t ht v hv
          rcases List.mem_cons.mp ht with rfl | ht
          · exact hidex v hv
          · exact htid t ht v hv
  intro implicants hne hsome hlen
  obtain ⟨terms, hterms, htlen, hteval, htid⟩ := key implicants hsome hlen
  cases hts : terms with
  | nil =>
      exfalso
      rw [hts] at htlen
      exact hne (List.length_eq_zero.mp htlen.symm)
  | cons t ts =>
      refine ⟨ts.foldl (fun result term => Expr.Or result term) t, ?_, ?_, ?_⟩
      · rw [implicants_to_expression, if_neg (by simpa using hne), hterms, hts]
      · intro f
        have h2 := hteval f
        rw [hts, List.any_cons] at h2
        rw [evalF_foldOr]
        exact h2
      · intro v hv
        rcases idents_foldOr ts t v hv with hv' | ⟨u, hu, hv'⟩
        · exact htid t (hts ▸ List.mem_cons_self _ _) v hv'
        · exact htid u (hts ▸ List.mem_cons_of_mem _ hu) v hv'

/-! ### The ON-set and the tautology/contradiction checks -/

theorem get_qmAssignment (vars : List String) (n i : Nat) (hnd : vars.Nodup)
    (j : Nat) (hj : j < vars.length) :
    Assignment.get (qmAssignment vars n i) (vars.get ⟨j, hj⟩) =
      ((i >>> (n - 1 - j)) &&& 1 == 1) := by
  have := get_enumFrom_map (fun idx => ((i >>> (n - 1 - idx)) &&& 1 == 1)) vars hnd 0 j hj
  simpa [qmAssignment, List.enum] using this

theorem get_qmAssignment_encode (vars : List String) (hnd : vars.Nodup)
    (f : String → Bool) :
    ∀ v ∈ vars,
      Assignment.get
        (qmAssignment vars vars.length (ofBitsMSB (vars.map f))) v = f v := by
  intro v hv
  obtain ⟨⟨j, hj⟩, rfl⟩ := List.mem_iff_get.mp hv
  rw [get_qmAssignment vars _ _ hnd j hj, bitget_eq_testBit]
  have hvl : (vars.map f).length = vars.length := by simp
  have hrt : valsOf vars.length (ofBitsMSB (vars.map f)) = vars.map f := by
    have h := valsOf_ofBitsMSB (vars.map f)
    rwa [hvl] at h
  have hjv : j < vars.length := hj
  calc Nat.testBit (ofBitsMSB (vars.map f)) (vars.length - 1 - j)
      = (valsOf vars.length (ofBitsMSB (vars.map f))).get
          ⟨j, by rw [length_valsOf]; exact hjv⟩ :=
        (valsOf_getElem vars.length (ofBitsMSB (vars.map f)) j hjv).symm
    _ = (vars.map f).get ⟨j, by simpa using hjv⟩ := by
        simp only [List.get_eq_getElem]
        exact List.getElem_of_eq hrt _
    _ = f (vars.get ⟨j, hj⟩) := by simp

theorem mem_onSet_iff (e : Expr) (vars : List String) (i : Nat) :
    i ∈ onSet e vars ↔ i < 2 ^ vars.length ∧
      evaluate_expression e (qmAssignment vars vars.length i) = true := by
  rw [onSet, List.mem_filter, List.mem_range, Nat.shiftLeft_eq, one_mul]

theorem evalF_true_iff_mem_onSet (e : Expr) (vars : List String)
    (hsub : ∀ v ∈ identsList e, v ∈ vars) (hnd : vars.Nodup) (f : String → Bool) :
    (evalF e f = true ↔ ofBitsMSB (vars.map f) ∈ onSet e vars) := by
  have hi : ofBitsMSB (vars.map f) < 2 ^ vars.length := by
    have h := ofBitsMSB_lt (vars.map f)
    simpa using h
  rw [mem_onSet_iff]
  rw [evaluate_eq_evalF]
  rw [evalF_congr e f
    (fun v => Assignment.get (qmAssignment vars vars.length (ofBitsMSB (vars.map f))) v)
    (fun v hv => (get_qmAssignment_encode vars hnd f v (hsub v hv)).symm)]
  simp [hi]

theorem is_tautology_spec (e : Expr) (vars : List String)
    (hfe : Variables.from_expr e = .ok vars) :
    (is_tautology e = true ↔ ∀ f, evalF e f = true) := by
  obtain ⟨-, -, -, hsorted, hne⟩ := from_expr_ok_inv e vars hfe
  have hnd : vars.Nodup := hsorted.nodup
  have hsub : ∀ v ∈ identsList e, v ∈ vars :=
    fun v hv => (from_expr_mem_iff e vars hfe v).mpr hv
  have hn : vars.length ≠ 0 := fun hc => hne (List.length_eq_zero.mp hc)
  rw [is_tautology, hfe]
  simp only [hn, if_false, List.all_eq_true, List.mem_range]
  constructor
  · intro h f
    rw [evalF_true_iff_mem_onSet e vars hsub hnd f, mem_onSet_iff]
    have hi : ofBitsMSB (vars.map f) < 2 ^ vars.length := by
      have hb := ofBitsMSB_lt (vars.map f)
      simpa using hb
    refine ⟨hi, h _ ?_⟩
    rwa [Nat.shiftLeft_eq, one_mul]
  · intro h i hi
    rw [evaluate_eq_evalF]
    exact h _

theorem is_contradiction_spec (e : Expr) (vars : List String)
    (hfe : Variables.from_expr e = .ok vars) :
    (is_contradiction e = true ↔ ∀ f, evalF e f = false) := by
  obtain ⟨-, -, -, hsorted, hne⟩ := from_expr_ok_inv e vars hfe
  have hnd : vars.Nodup := hsorted.nodup
  have hsub : ∀ v ∈ identsList e, v ∈ vars :=
    fun v hv => (from_expr_mem_iff e vars hfe v).mpr hv
  have hn : vars.length ≠ 0 := fun hc => hne (List.length_eq_zero.mp hc)
  rw [is_contradiction, hfe]
  simp only [hn, if_false, List.all_eq_true, List.mem_range, Bool.not_eq_true']
  constructor
  · intro h f
    have hiff := evalF_true_iff_mem_onSet e vars hsub hnd f
    rw [mem_onSet_iff] at hiff
    cases hef : evalF e f
    · rfl
    · exfalso
      obtain ⟨-, hev⟩ := hiff.mp hef
      have hi : ofBitsMSB (vars.map f) < 1 <<< vars.length := by
        have hb := ofBitsMSB_lt (vars.map f)
        rw [Nat.shiftLeft_eq, one_mul]
        simpa using hb
      rw [h _ hi] at hev
      cases hev
  · intro h i hi
    rw [evaluate_eq_evalF]
    exact h _

theorem onSet_subset_range (e : Expr) (vars : List String) :
    ∀ i ∈ onSet e vars, i < 2 ^ vars.length := by
  intro i hi
  exact ((mem_onSet_iff e vars i).mp hi).1

/-! ### Semantic preservation of `reduce_expression` -/

theorem someCount_new (idx n : Nat) : someCount (Minterm.new idx n).bits = n := by
  have hall : ∀ ob ∈ (valsOf n idx).map some, Option.isSome ob = true := by
    intro ob hob
    obtain ⟨b, -, rfl⟩ := List.mem_map.mp hob
    rfl
  rw [Minterm.new_bits, someCount, List.filter_eq_self.mpr hall, List.length_map,
    length_valsOf]

theorem reduce_sem (e : Expr) (vars : List String)
    (hfe : Variables.from_expr e = .ok vars) :
    ∃ r : Reduction, reduce_expression e = .ok r ∧ r.original = e ∧
      (∀ f, evalF r.reduced f = evalF e f) ∧
      ∃ vs', Variables.from_expr r.reduced = .ok vs' := by
  obtain ⟨hvalid, hveq, hvlen, hsorted, hvne⟩ := from_expr_ok_inv e vars hfe
  have hnd : vars.Nodup := hsorted.nodup
  have hsub : ∀ v ∈ identsList e, v ∈ vars :=
    fun v hv => (from_expr_mem_iff e vars hfe v).mpr hv
  have hmemvalid : ∀ v ∈ vars, validName v := from_expr_mem_valid e vars hfe
  by_cases htaut : is_tautology e = true
  · refine ⟨⟨e, trueSentinel, true⟩, ?_, rfl, ?_, ?_⟩
    · rw [reduce_expression, if_pos htaut]
    · intro f
      have he := (is_tautology_spec e vars hfe).mp htaut f
      rw [he]
      show (f "true" || !(f "true")) = true
      cases f "true" <;> rfl
    · refine ⟨["true"], ?_⟩
      show Variables.from_expr trueSentinel = Except.ok ["true"]
      rfl
  · by_cases hcontra : is_contradiction e = true
    · refine ⟨⟨e, falseSentinel, true⟩, ?_, rfl, ?_, ?_⟩
      · rw [reduce_expression, if_neg htaut, if_pos hcontra]
      · intro f
        have he := (is_contradiction_spec e vars hfe).mp hcontra f
        rw [he]
        show (f "false" && !(f "false")) = false
        cases f "false" <;> rfl
      · refine ⟨["false"], ?_⟩
        show Variables.from_expr falseSentinel = Except.ok ["false"]
        rfl
    · have hONne : onSet e vars ≠ [] := by
        have hnotall : ¬ ∀ f, evalF e f = false :=
          fun hc => hcontra ((is_contradiction_spec e vars hfe).mpr hc)
        push_neg at hnotall
        obtain ⟨f, hf⟩ := hnotall
        have hft : evalF e f = true := by
          cases hef : evalF e f
          · exact absurd hef hf
          · rfl
        have hmem := (evalF_true_iff_mem_onSet e vars hsub hnd f).mp hft
        intro hc
        rw [hc] at hmem
        cases hmem
      obtain ⟨i0, hi0lt, hi0notin⟩ :
          ∃ i0, i0 < 2 ^ vars.length ∧ i0 ∉ onSet e vars := by
        have hnotall : ¬ ∀ f, evalF e f = true :=
          fun hc => htaut ((is_tautology_spec e vars hfe).mpr hc)
        push_neg at hnotall
        obtain ⟨f, hf⟩ := hnotall
        refine ⟨ofBitsMSB (vars.map f), ?_, ?_⟩
        · have hb := ofBitsMSB_lt (vars.map f)
          simpa using hb
        · intro hc
          exact hf ((evalF_true_iff_mem_onSet e vars hsub hnd f).mpr hc)
      have hseedsGood : ∀ m ∈ (onSet e vars).map (fun idx => Minterm.new idx vars.length),
          GoodImp vars.length (onSet e vars) m := by
        intro m hm
        obtain ⟨idx, hidx, rfl⟩ := List.mem_map.mp hm
        exact GoodImp_new vars.length (onSet e vars) idx
          (onSet_subset_range e vars idx hidx) hidx
      have hseedsCount : ∀ m ∈ (onSet e vars).map (fun idx => Minterm.new idx vars.length),
          someCount m.bits ≤ vars.length := by
        intro m hm
        obtain ⟨idx, hidx, rfl⟩ := List.mem_map.mp hm
        rw [someCount_new]
      have hprimesGood : ∀ m ∈ find_prime_implicants vars.length
          ((onSet e vars).map fun idx => Minterm.new idx vars.length),
          GoodImp vars.length (onSet e vars) m := by
        intro m hm
        exact findPIAux_sound _ (fun a b c ha hb hc => GoodImp_combine ha hb hc)
          (vars.length + 1) [] _ hseedsGood (by simp) m hm
      have hprimesCov : ∀ x ∈ onSet e vars,
          coveredByAny (find_prime_implicants vars.length
            ((onSet e vars).map fun idx => Minterm.new idx vars.length)) x = true := by
        intro x hx
        rw [coveredByAny_iff]
        exact findPIAux_coverage (vars.length + 1) vars.length []
          ((onSet e vars).map fun idx => Minterm.new idx vars.length)
          (by omega) hseedsCount x
          (Or.inl ⟨Minterm.new x vars.length, List.mem_map.mpr ⟨x, hx, rfl⟩,
            List.mem_singleton_self x⟩)
      obtain ⟨hcovsub, hcovall⟩ := find_minimal_cover_props (onSet e vars) _ hprimesCov
      have hcovGood : ∀ m ∈ find_minimal_cover (onSet e vars)
          (find_prime_implicants vars.length
            ((onSet e vars).map fun idx => Minterm.new idx vars.length)),
          GoodImp vars.length (onSet e vars) m := fun m hm => hprimesGood m (hcovsub m hm)
      have hcovne : find_minimal_cover (onSet e vars)
          (find_prime_implicants vars.length
            ((onSet e vars).map fun idx => Minterm.new idx vars.length)) ≠ [] := by
        obtain ⟨x, hx⟩ := List.exists_mem_of_ne_nil _ hONne
        have hcv := hcovall x hx
        rw [coveredByAny_iff] at hcv
        obtain ⟨m, hm, -⟩ := hcv
        intro hc
        rw [hc] at hm
        cases hm
      have hcovsome : ∀ m ∈ find_minimal_cover (onSet e vars)
          (find_prime_implicants vars.length
            ((onSet e vars).map fun idx => Minterm.new idx vars.length)),
          someCount m.bits ≠ 0 := by
        intro m hm hzero
        have hbl := (hcovGood m hm).1
        have hmatch : matchesL m.bits (valsOf vars.length i0) = true :=
          matchesL_all_none m.bits hzero (valsOf vars.length i0)
            (by rw [length_valsOf, hbl])
        have hi0cov : i0 ∈ m.covered_minterms :=
          ((hcovGood m hm).2.1 i0).mpr ⟨hi0lt, hmatch⟩
        exact hi0notin ((hcovGood m hm).2.2 i0 hi0cov)
      have hcovlen : ∀ m ∈ find_minimal_cover (onSet e vars)
          (find_prime_implicants vars.length
            ((onSet e vars).map fun idx => Minterm.new idx vars.length)),
          m.bits.length = vars.length := fun m hm => (hcovGood m hm).1
      obtain ⟨ex, hex, hevalex, hidents⟩ :=
        implicants_to_expression_spec vars _ hcovne hcovsome hcovlen
      have hmin : minimize vars (onSet e vars) = some ex := by
        have h1 : ¬((onSet e vars).isEmpty = true) := by
          rw [List.isEmpty_iff]
          exact hONne
        have h2 : ¬(vars.length = 0) := fun hc => hvne (List.length_eq_zero.mp hc)
        show (if (onSet e vars).isEmpty then some falseSentinel
          else if vars.length = 0 then none
          else implicants_to_expression vars (find_minimal_cover (onSet e vars)
            (find_prime_implicants vars.length
              ((onSet e vars).map fun idx => Minterm.new idx vars.length)))) = some ex
        rw [if_neg h1, if_neg h2, hex]
      refine ⟨⟨e, ex, !(expressions_equivalent_structure e ex)⟩, ?_, rfl, ?_, ?_⟩
      · rw [reduce_expression, if_neg htaut, if_neg hcontra, hfe]
        show (match minimize vars (onSet e vars) with
          | some reduced_expr =>
              Except.ok (⟨e, reduced_expr,
                !(expressions_equivalent_structure e reduced_expr)⟩ : Reduction)
          | none => Except.ok ⟨e, e, false⟩) = _
        rw [hmin]
      · intro f
        have hilt : ofBitsMSB (vars.map f) < 2 ^ vars.length := by
          have hb := ofBitsMSB_lt (vars.map f)
          simpa using hb
        have hvals : valsOf vars.length (ofBitsMSB (vars.map f)) = vars.map f := by
          have h := valsOf_ofBitsMSB (vars.map f)
          rwa [show (vars.map f).length = vars.length from by simp] at h
        have hiff : (find_minimal_cover (onSet e vars)
            (find_prime_implicants vars.length
              ((onSet e vars).map fun idx => Minterm.new idx vars.length))).any
            (fun m => matchesL m.bits (vars.map f)) = true ↔
            ofBitsMSB (vars.map f) ∈ onSet e vars := by
          constructor
          · intro h
            rw [List.any_eq_true] at h
            obtain ⟨m, hm, hmm⟩ := h
            have hin : ofBitsMSB (vars.map f) ∈ m.covered_minterms :=
              ((hcovGood m hm).2.1 _).mpr ⟨hilt, by rwa [hvals]⟩
            exact (hcovGood m hm).2.2 _ hin
          · intro h
            have hcv := hcovall _ h
            rw [coveredByAny_iff] at hcv
            obtain ⟨m, hm, hic⟩ := hcv
            rw [List.any_eq_true]
            have hmc := ((hcovGood m hm).2.1 _).mp hic
            exact ⟨m, hm, by rw [← hvals]; exact hmc.2⟩
        have hE : evalF e f = true ↔ ofBitsMSB (vars.map f) ∈ onSet e vars :=
          evalF_true_iff_mem_onSet e vars hsub hnd f
        show evalF ex f = evalF e f
        rw [hevalex f]
        cases hef : evalF e f
        · cases hca : (find_minimal_cover (onSet e vars)
              (find_prime_implicants vars.length
                ((onSet e vars).map fun idx => Minterm.new idx vars.length))).any
              (fun m => matchesL m.bits (vars.map f))
          · rfl
          · exfalso
            have hT := hE.mpr (hiff.mp hca)
            rw [hT] at hef
            cases hef
        · exact hiff.mpr (hE.mp hef)
      · have hexvalid : ∀ v ∈ identsList ex, validName v :=
          fun v hv => hmemvalid v (hidents v hv)
        have hexlen : (unionFold [] (identsList ex)).length ≤ MAX_VARIABLES := by
          have hsub2 : unionFold [] (identsList ex) ⊆ vars := by
            intro v hv
            rcases (mem_unionFold [] _ v).mp hv with h | h
            · cases h
            · exact hidents v h
          have hnd2 : (unionFold [] (identsList ex)).Nodup :=
            (sorted_unionFold [] _ (by simp)).nodup
          exact le_trans (hnd2.subperm hsub2).length_le hvlen
        exact ⟨_, from_expr_ok_of_valid ex hexvalid hexlen⟩

/-! ### Unfolding equations and error shapes for the three operations -/

theorem generate_truth_table_eq (e : Expr) (vars : List String)
    (hfe : Variables.from_expr e = .ok vars) :
    generate_truth_table e =
      (if vars.length = 0 then
        Except.ok ⟨vars, [⟨[], evaluate_expression e []⟩]⟩
      else
        Except.ok ⟨vars, (List.range (1 <<< vars.length)).map fun i =>
          ⟨rowAssignment vars i, evaluate_expression e (rowAssignment vars i)⟩⟩) := by
  rw [generate_truth_table, hfe]

theorem generate_truth_table_error (e : Expr) (err : EvaluationError)
    (h : generate_truth_table e = .error err) : Variables.from_expr e = .error err := by
  cases hfe : Variables.from_expr e with
  | ok vars =>
      rw [generate_truth_table_eq e vars hfe] at h
      by_cases hn : vars.length = 0
      · rw [if_pos hn] at h; cases h
      · rw [if_neg hn] at h; cases h
  | error err' =>
      rw [generate_truth_table, hfe] at h
      cases h
      rfl

theorem check_equivalence_eq (l r : Expr) (vsl vsr : List String)
    (hl : Variables.from_expr l = .ok vsl) (hr : Variables.from_expr r = .ok vsr) :
    check_equivalence l r =
      (if (Variables.union vsl vsr).length = 0 then
        Except.ok ⟨evaluate_expression l [] == evaluate_expression r [],
          Variables.union vsl vsr,
          if evaluate_expression l [] != evaluate_expression r [] then
            [⟨[], evaluate_expression l [], evaluate_expression r []⟩]
          else []⟩
      else
        Except.ok ⟨(equivDiffs l r (Variables.union vsl vsr)).isEmpty,
          Variables.union vsl vsr, equivDiffs l r (Variables.union vsl vsr)⟩) := by
  rw [check_equivalence, hl, hr]

theorem check_equivalence_error (l r : Expr) (err : EvaluationError)
    (h : check_equivalence l r = .error err) :
    Variables.from_expr l = .error err ∨ Variables.from_expr r = .error err := by
  cases hl : Variables.from_expr l with
  | error err' =>
      rw [check_equivalence, hl] at h
      cases h
      exact Or.inl rfl
  | ok vsl =>
      cases hr : Variables.from_expr r with
      | error err' =>
          rw [check_equivalence, hl, hr] at h
          cases h
          exact Or.inr rfl
      | ok vsr =>
          rw [check_equivalence_eq l r vsl vsr hl hr] at h
          by_cases hn : (Variables.union vsl vsr).length = 0
          · rw [if_pos hn] at h; cases h
          · rw [if_neg hn] at h; cases h

theorem check_equivalence_of_agree (l r : Expr) (vsl vsr : List String)
    (hl : Variables.from_expr l = .ok vsl) (hr : Variables.from_expr r = .ok vsr)
    (hagree : ∀ f, evalF l f = evalF r f) :
    ∃ c : EquivalenceCheck, check_equivalence l r = .ok c ∧ c.equivalent = true := by
  have hrows : ∀ (a : Assignment), evaluate_expression l a = evaluate_expression r a := by
    intro a
    rw [evaluate_eq_evalF, evaluate_eq_evalF, hagree]
  rw [check_equivalence_eq l r vsl vsr hl hr]
  by_cases hn : (Variables.union vsl vsr).length = 0
  · rw [if_pos hn]
    refine ⟨_, rfl, ?_⟩
    show (evaluate_expression l [] == evaluate_expression r []) = true
    rw [hrows []]
    simp
  · rw [if_neg hn]
    refine ⟨_, rfl, ?_⟩
    show (equivDiffs l r (Variables.union vsl vsr)).isEmpty = true
    have hnil : equivDiffs l r (Variables.union vsl vsr) = [] := by
      rw [equivDiffs, List.filterMap_eq_nil]
      intro i hi
      show (if evaluate_expression l (rowAssignment (Variables.union vsl vsr) i) !=
          evaluate_expression r (rowAssignment (Variables.union vsl vsr) i) then
          some (⟨rowAssignment (Variables.union vsl vsr) i,
            evaluate_expression l (rowAssignment (Variables.union vsl vsr) i),
            evaluate_expression r (rowAssignment (Variables.union vsl vsr) i)⟩ :
              EquivalenceDifference)
        else none) = none
      rw [hrows (rowAssignment (Variables.union vsl vsr) i)]
      simp
    rw [hnil]
    rfl

theorem reduce_expression_taut (e : Expr) (h : is_tautology e = true) :
    reduce_expression e = .ok ⟨e, trueSentinel, true⟩ := by
  rw [reduce_expression, if_pos h]

theorem reduce_expression_contra (e : Expr) (h1 : is_tautology e = false)
    (h2 : is_contradiction e = true) :
    reduce_expression e = .ok ⟨e, falseSentinel, true⟩ := by
  rw [reduce_expression, if_neg (by rw [h1]; exact Bool.false_ne_true), if_pos h2]

theorem reduce_expression_qm (e : Expr) (vars : List String)
    (h1 : is_tautology e = false) (h2 : is_contradiction e = false)
    (hfe : Variables.from_expr e = .ok vars) :
    reduce_expression e =
      (match minimize vars (onSet e vars) with
      | some reduced_expr =>
          Except.ok ⟨e, reduced_expr, !(expressions_equivalent_structure e reduced_expr)⟩
      | none => Except.ok ⟨e, e, false⟩) := by
  rw [reduce_expression, if_neg (by rw [h1]; exact Bool.false_ne_true),
    if_neg (by rw [h2]; exact Bool.false_ne_true), hfe]

theorem reduce_expression_err (e : Expr) (err : EvaluationError)
    (h1 : is_tautology e = false) (h2 : is_contradiction e = false)
    (hfe : Variables.from_expr e = .error err) :
    reduce_expression e = .error err := by
  rw [reduce_expression, if_neg (by rw [h1]; exact Bool.false_ne_true),
    if_neg (by rw [h2]; exact Bool.false_ne_true), hfe]

theorem reduce_expression_error (e : Expr) (err : EvaluationError)
    (h : reduce_expression e = .error err) : Variables.from_expr e = .error err := by
  cases htaut : is_tautology e with
  | true => rw [reduce_expression_taut e htaut] at h; cases h
  | false =>
      cases hcontra : is_contradiction e with
      | true => rw [reduce_expression_contra e htaut hcontra] at h; cases h
      | false =>
          cases hfe : Variables.from_expr e with
          | ok vars =>
              rw [reduce_expression_qm e vars htaut hcontra hfe] at h
              cases hmin : minimize vars (onSet e vars) with
              | some red => rw [hmin] at h; cases h
              | none => rw [hmin] at h; cases h
          | error err' =>
              rw [reduce_expression_err e err' htaut hcontra hfe] at h
              cases h
              rfl

/-! ### The structural comparison is exactly syntactic equality -/

theorem ees_iff_eq : ∀ (a b : Expr), expressions_equivalent_structure a b = true ↔ a = b := by
  intro a
  induction a with
  | Identifier n =>
      intro b
      cases b <;> simp [expressions_equivalent_structure]
  | Not x ih =>
      intro b
      cases b <;> simp [expressions_equivalent_structure, ih]
  | And x y ihx ihy =>
      intro b
      cases b <;> simp [expressions_equivalent_structure, ihx, ihy]
  | Or x y ihx ihy =>
      intro b
      cases b <;> simp [expressions_equivalent_structure, ihx, ihy]
  | Xor x y ihx ihy =>
      intro b
      cases b <;> simp [expressions_equivalent_structure, ihx, ihy]
  | Implication x y ihx ihy =>
      intro b
      cases b <;> simp [expressions_equivalent_structure, ihx, ihy]

/-! ### The claims -/

/-- C9: evaluation depends only on the variables occurring in the expression:
extending an assignment with a binding for a name that does not occur in `e`
does not change the value, because lookups of missing names default to
`false`. -/
theorem claim_C9 (e : Expr) (a : Assignment) (x : String) (b : Bool)
    (h : x ∉ identsList e) :
    evaluate_expression e ((x, b) :: a) = evaluate_expression e a := by
  rw [evaluate_eq_evalF, evaluate_eq_evalF]
  apply evalF_congr
  intro v hv
  have hne : x ≠ v := fun hc => h (hc ▸ hv)
  show Assignment.get ((x, b) :: a) v = a.get v
  exact Assignment.get_cons_ne b a (by simp [hne])

theorem claim_C9_witness :
    evaluate_expression (.Identifier "a") (("z", true) :: [("a", true)]) =
      evaluate_expression (.Identifier "a") [("a", true)] :=
  claim_C9 (.Identifier "a") [("a", true)] "z" true (by decide)

/-- C10: reducing a tree that is itself one of the sentinel trees returns a
structurally identical tree yet reports `simplified = true`, because the
tautology/contradiction branches set `simplified` unconditionally. -/
theorem claim_C10 :
    reduce_expression falseSentinel = .ok ⟨falseSentinel, falseSentinel, true⟩ ∧
    reduce_expression trueSentinel = .ok ⟨trueSentinel, trueSentinel, true⟩ ∧
    expressions_equivalent_structure falseSentinel falseSentinel = true ∧
    expressions_equivalent_structure trueSentinel trueSentinel = true := by
  exact ⟨rfl, rfl, rfl, rfl⟩

/-- C5: the truth table of a valid tree has exactly `2 ^ (number of
variables)` rows, and in the zero-variable branch exactly one row carrying
the empty assignment. -/
theorem claim_C5 (e : Expr) (tt : TruthTable) (h : generate_truth_table e = .ok tt) :
    tt.rows.length = 2 ^ tt.vars.length ∧
    (tt.vars.length = 0 → ∃ row, tt.rows = [row] ∧ row.assignments = []) := by
  cases hfe : Variables.from_expr e with
  | error err => rw [generate_truth_table, hfe] at h; cases h
  | ok vars =>
      rw [generate_truth_table_eq e vars hfe] at h
      by_cases hn : vars.length = 0
      · rw [if_pos hn] at h
        cases h
        constructor
        · show ([⟨[], evaluate_expression e []⟩] :
            List TruthTableRow).length = 2 ^ vars.length
          rw [hn]
          rfl
        · intro _
          exact ⟨_, rfl, rfl⟩
      · rw [if_neg hn] at h
        cases h
        constructor
        · show ((List.range (1 <<< vars.length)).map fun i =>
            (⟨rowAssignment vars i, evaluate_expression e (rowAssignment vars i)⟩ :
              TruthTableRow)).length = 2 ^ vars.length
          rw [List.length_map, List.length_range, Nat.shiftLeft_eq, one_mul]
        · intro hc
          exact absurd hc hn

theorem claim_C5_witness :
    ∃ tt, generate_truth_table (Expr.Identifier "a") = .ok tt ∧
      tt.rows.length = 2 ^ tt.vars.length := by
  refine ⟨_, rfl, ?_⟩
  exact (claim_C5 (Expr.Identifier "a") _ rfl).1

/-- C2 (amended): the truth-table / equivalence enumeration assigns the
variable at sorted position `p` bit `p` of the row index (LSB-first), but
the minimizer's enumeration (`qmAssignment`, used for the ON-set and the
tautology/contradiction checks) assigns it bit `n - 1 - p` (MSB-first); the
two mappings are not the same. -/
theorem claim_C2 (vars : List String) (hnd : vars.Nodup) (i p : Nat)
    (hp : p < vars.length) :
    Assignment.get (rowAssignment vars i) (vars.get ⟨p, hp⟩) =
      ((i >>> p) &&& 1 == 1) ∧
    Assignment.get (qmAssignment vars vars.length i) (vars.get ⟨p, hp⟩) =
      ((i >>> (vars.length - 1 - p)) &&& 1 == 1) :=
  ⟨get_rowAssignment vars i hnd p hp, get_qmAssignment vars vars.length i hnd p hp⟩

theorem claim_C2_witness :
    Assignment.get (rowAssignment ["a", "b"] 1) (["a", "b"].get ⟨0, by decide⟩) =
      ((1 >>> 0) &&& 1 == 1) ∧
    Assignment.get (qmAssignment ["a", "b"] (["a", "b"].length) 1)
      (["a", "b"].get ⟨0, by decide⟩) =
      ((1 >>> (["a", "b"].length - 1 - 0)) &&& 1 == 1) :=
  claim_C2 ["a", "b"] (by decide) 1 0 (by decide)

/-- C2 counterexample: the claim "the value assigned to the variable at sorted
position p is bit p of i ... identically in truth table, equivalence and
ON-set construction" fails: for row 1 over variables a, b the truth-table
map gives a := bit 0 = true while the minimizer's map gives a := false, and
the ON-set of `a ∧ ¬b` is `[2]`, not `[1]` as the LSB mapping would give. -/
theorem claim_C2_counterexample :
    Assignment.get (rowAssignment ["a", "b"] 1) "a" = ((1 >>> 0) &&& 1 == 1) ∧
    Assignment.get (qmAssignment ["a", "b"] 2 1) "a" ≠ ((1 >>> 0) &&& 1 == 1) ∧
    onSet (Expr.And (.Identifier "a") (.Not (.Identifier "b"))) ["a", "b"] = [2] := by
  refine ⟨rfl, ?_, rfl⟩
  decide

/-- C1: reduction preserves the truth value — for every tree whose variables
validate, `reduce` succeeds and checking equivalence of the original against
the reduced tree (over the union of both trees' variables) reports
`equivalent = true`. -/
theorem claim_C1 (e : Expr) (vars : List String)
    (h : Variables.from_expr e = .ok vars) :
    ∃ (r : Reduction) (c : EquivalenceCheck),
      reduce_expression e = .ok r ∧ check_equivalence e r.reduced = .ok c ∧
      c.equivalent = true := by
  obtain ⟨r, hred, horig, hsem, vs', hvs'⟩ := reduce_sem e vars h
  obtain ⟨c, hc, heq⟩ := check_equivalence_of_agree e r.reduced vars vs' h hvs'
    (fun f => (hsem f).symm)
  exact ⟨r, c, hred, hc, heq⟩

theorem claim_C1_witness :
    ∃ (r : Reduction) (c : EquivalenceCheck),
      reduce_expression
        (Expr.Or (.Identifier "a") (.And (.Identifier "a") (.Identifier "b"))) = .ok r ∧
      check_equivalence
        (Expr.Or (.Identifier "a") (.And (.Identifier "a") (.Identifier "b")))
        r.reduced = .ok c ∧
      c.equivalent = true :=
  claim_C1 (Expr.Or (.Identifier "a") (.And (.Identifier "a") (.Identifier "b")))
    ["a", "b"] (by rfl)

/-- Characterization of the `simplified` flag across the branches of
`reduce_expression`. -/
theorem reduce_simplified_iff (e : Expr) (r : Reduction)
    (h : reduce_expression e = .ok r) :
    (r.simplified = true ↔
      (is_tautology e = true ∨ is_contradiction e = true ∨ r.reduced ≠ e)) := by
  cases htaut : is_tautology e with
  | true =>
      rw [reduce_expression_taut e htaut] at h
      cases h
      simp
  | false =>
      cases hcontra : is_contradiction e with
      | true =>
          rw [reduce_expression_contra e htaut hcontra] at h
          cases h
          simp
      | false =>
          cases hfe : Variables.from_expr e with
          | error err =>
              rw [reduce_expression_err e err htaut hcontra hfe] at h
              cases h
          | ok vars =>
              rw [reduce_expression_qm e vars htaut hcontra hfe] at h
              cases hmin : minimize vars (onSet e vars) with
              | some red =>
                  rw [hmin] at h
                  cases h
                  show (!(expressions_equivalent_structure e red)) = true ↔ _
                  rw [Bool.not_eq_true']
                  constructor
                  · intro hees
                    refine Or.inr (Or.inr ?_)
                    intro hc
                    have hts : expressions_equivalent_structure e red = true :=
                      (ees_iff_eq e red).mpr hc.symm
                    rw [hts] at hees
                    cases hees
                  · rintro (hc | hc | hne)
                    · cases hc
                    · cases hc
                    · cases hees : expressions_equivalent_structure e red with
                      | false => rfl
                      | true =>
                          exact absurd ((ees_iff_eq e red).mp hees).symm hne
              | none =>
                  rw [hmin] at h
                  cases h
                  simp [htaut, hcontra]

/-- C3 (amended): the `simplified` flag is true iff the
tautology/contradiction branch was taken or the reduced tree differs
syntactically from the original; the structural comparison
(`expressions_equivalent_structure`) is exact syntactic equality — it does
NOT treat the binary operators as commutative. -/
theorem claim_C3 (e : Expr) (r : Reduction) (h : reduce_expression e = .ok r) :
    (r.simplified = true ↔
      (is_tautology e = true ∨ is_contradiction e = true ∨ r.reduced ≠ e)) ∧
    (∀ a b : Expr, expressions_equivalent_structure a b = true ↔ a = b) :=
  ⟨reduce_simplified_iff e r h, ees_iff_eq⟩

theorem claim_C3_witness :
    ((⟨Expr.And (.Identifier "b") (.Identifier "a"),
        Expr.And (.Identifier "a") (.Identifier "b"), true⟩ : Reduction).simplified = true ↔
      (is_tautology (Expr.And (.Identifier "b") (.Identifier "a")) = true ∨
       is_contradiction (Expr.And (.Identifier "b") (.Identifier "a")) = true ∨
       (⟨Expr.And (.Identifier "b") (.Identifier "a"),
          Expr.And (.Identifier "a") (.Identifier "b"), true⟩ : Reduction).reduced ≠
         Expr.And (.Identifier "b") (.Identifier "a"))) ∧
    (∀ a b : Expr, expressions_equivalent_structure a b = true ↔ a = b) :=
  claim_C3 (Expr.And (.Identifier "b") (.Identifier "a"))
    ⟨Expr.And (.Identifier "b") (.Identifier "a"),
      Expr.And (.Identifier "a") (.Identifier "b"), true⟩ (by rfl)

/-- C3 counterexample: reducing `b ∧ a` yields the commuted tree `a ∧ b` and
reports `simplified = true`, although under the spec's commutative-aware
structural comparison the two trees are identical — so "simplified iff not
structurally identical (commutative)" is false on the code. -/
theorem claim_C3_counterexample :
    ∃ r, reduce_expression (Expr.And (.Identifier "b") (.Identifier "a")) = .ok r ∧
      r.simplified = true ∧
      structEqCommSpec (Expr.And (.Identifier "b") (.Identifier "a")) r.reduced = true := by
  refine ⟨_, rfl, ?_, ?_⟩ <;> rfl

/-- C4: for validated input the three operations always return a successful
result; the only errors any of them ever surfaces are the two validation
errors, and they are exactly the error produced by variable validation
(never raised mid-algorithm); and the prime-implicant combination loop is
insensitive to any fuel beyond `num_vars + 1` for every ON-set, i.e. the
source's unbounded `while` loop terminates. -/
theorem claim_C4 (e₁ e₂ : Expr) :
    (∀ vars, Variables.from_expr e₁ = .ok vars →
      (∃ tt, generate_truth_table e₁ = .ok tt) ∧
      (∃ r, reduce_expression e₁ = .ok r)) ∧
    (∀ vars₁ vars₂, Variables.from_expr e₁ = .ok vars₁ →
      Variables.from_expr e₂ = .ok vars₂ →
      ∃ c, check_equivalence e₁ e₂ = .ok c) ∧
    (∀ err, (generate_truth_table e₁ = .error err ∨
        check_equivalence e₁ e₂ = .error err ∨
        reduce_expression e₁ = .error err) →
      ((∃ n, err = .InvalidVariableName n) ∨ (∃ c m, err = .TooManyVariables c m)) ∧
      (Variables.from_expr e₁ = .error err ∨ Variables.from_expr e₂ = .error err)) ∧
    (∀ (n : Nat) (minterms : List Nat) (k : Nat),
      findPIAux (n + 1 + k) [] (minterms.map fun idx => Minterm.new idx n) =
        findPIAux (n + 1) [] (minterms.map fun idx => Minterm.new idx n)) := by
  refine ⟨?_, ?_, ?_, ?_⟩
  · intro vars h
    constructor
    · rw [generate_truth_table_eq e₁ vars h]
      by_cases hn : vars.length = 0
      · rw [if_pos hn]; exact ⟨_, rfl⟩
      · rw [if_neg hn]; exact ⟨_, rfl⟩
    · obtain ⟨r, hr, -⟩ := reduce_sem e₁ vars h
      exact ⟨r, hr⟩
  · intro vars₁ vars₂ h₁ h₂
    rw [check_equivalence_eq e₁ e₂ vars₁ vars₂ h₁ h₂]
    by_cases hn : (Variables.union vars₁ vars₂).length = 0
    · rw [if_pos hn]; exact ⟨_, rfl⟩
    · rw [if_neg hn]; exact ⟨_, rfl⟩
  · intro err herr
    rcases herr with h | h | h
    · have hf := generate_truth_table_error e₁ err h
      exact ⟨from_expr_error_shape e₁ err hf, Or.inl hf⟩
    · rcases check_equivalence_error e₁ e₂ err h with hf | hf
      · exact ⟨from_expr_error_shape e₁ err hf, Or.inl hf⟩
      · exact ⟨from_expr_error_shape e₂ err hf, Or.inr hf⟩
    · have hf := reduce_expression_error e₁ err h
      exact ⟨from_expr_error_shape e₁ err hf, Or.inl hf⟩
  · intro n minterms k
    apply findPIAux_fuel_irrelevant n (n + 1 + k) (n + 1) _ _ (by omega) (by omega)
    intro m hm
    obtain ⟨idx, -, rfl⟩ := List.mem_map.mp hm
    rw [someCount_new]

theorem claim_C4_witness :
    (∃ tt, generate_truth_table (Expr.Identifier "a") = .ok tt) ∧
    (∃ r, reduce_expression (Expr.Identifier "a") = .ok r) ∧
    (∃ c, check_equivalence (Expr.Identifier "a") (Expr.Identifier "b") = .ok c) := by
  obtain ⟨h1, h2, -, -⟩ := claim_C4 (Expr.Identifier "a") (Expr.Identifier "b")
  obtain ⟨htt, hr⟩ := h1 ["a"] (by rfl)
  exact ⟨htt, hr, h2 ["a"] ["b"] (by rfl) (by rfl)⟩

/-- C6: a tree with exactly 20 distinct valid names collects successfully;
as soon as a 21st distinct name is inserted the collection fails with
`TooManyVariables{count: 21, max: 20}` regardless of anything after that
point in the traversal (short-circuit); and inserting an already-present
name leaves the set unchanged, so re-occurrences can never trigger the count
failure. -/
theorem claim_C6 :
    (∀ e : Expr, (∀ n ∈ identsList e, validName n = true) →
      (unionFold [] (identsList e)).length = 20 →
      ∃ vs, Variables.from_expr e = .ok vs ∧ vs.length = 20) ∧
    (∀ (e : Expr) (pre : List String) (name : String) (suf : List String),
      identsList e = pre ++ name :: suf →
      (∀ m ∈ pre, validName m = true) → validName name = true →
      (unionFold [] pre).length = 20 → name ∉ unionFold [] pre →
      Variables.from_expr e = .error (.TooManyVariables 21 20)) ∧
    (∀ (name : String) (vs : List String), vs.Sorted (· < ·) → name ∈ vs →
      insertSorted name vs = vs) := by
  refine ⟨?_, ?_, ?_⟩
  · intro e hv h20
    refine ⟨unionFold [] (identsList e), from_expr_ok_of_valid e hv ?_, h20⟩
    rw [h20]
    decide
  · intro e pre name suf hsplit hpre hname h20 hnotmem
    rw [Variables.from_expr, collect_eq_collectNames, hsplit,
      collectNames_split pre (name :: suf) [] (by simp) hpre (by rw [h20]; decide)]
    have hlen21 : (insertSorted name (unionFold [] pre)).length = 21 := by
      rw [length_insertSorted_of_not_mem name _ hnotmem, h20]
    simp only [collectNames, hname, Bool.not_true, Bool.false_eq_true, if_false]
    rw [hlen21, if_pos (by decide : (21 : Nat) > MAX_VARIABLES)]
    rfl
  · intro name vs hs hmem
    exact insertSorted_eq_of_mem name vs hs hmem

theorem claim_C6_witness :
    (∃ vs, Variables.from_expr tree20 = .ok vs ∧ vs.length = 20) ∧
    Variables.from_expr tree21 = .error (.TooManyVariables 21 20) := by
  constructor
  · exact claim_C6.1 tree20 (by decide) (by decide)
  · exact claim_C6.2.1 tree21
      ["a", "b", "c", "d", "e", "f", "g", "h", "i", "j",
       "k", "l", "m", "n", "o", "p", "q", "r", "s", "t"]
      "u" [] (by decide) (by decide) (by decide) (by decide) (by decide)

/-- C7 (amended): collection fails with `InvalidVariableName(name)` exactly
when, in pre-order, a leaf named `name` with an invalid name is reached
while the distinct-name count of the names before it is still within the
cap (so validation happens before insertion); a name is invalid exactly
when it is empty, longer than 50 characters, or contains a character that
is neither alphanumeric nor underscore; and `"a-b"`, `""` and a
51-character name are each invalid. -/
theorem claim_C7 (e : Expr) (name : String) :
    (Variables.from_expr e = .error (.InvalidVariableName name) ↔
      ∃ pre suf, identsList e = pre ++ name :: suf ∧
        (∀ m ∈ pre, validName m = true) ∧
        (unionFold [] pre).length ≤ MAX_VARIABLES ∧ ¬ validName name = true) ∧
    (validName name = true ↔
      (name.isEmpty = false ∧ name.length ≤ 50 ∧
        ∀ c ∈ name.toList, (c.isAlphanum = true ∨ c = '_'))) ∧
    validName "a-b" = false ∧ validName "" = false ∧
    validName (String.mk (List.replicate 51 'x')) = false := by
  refine ⟨?_, ?_, by decide, by decide, by decide⟩
  · rw [Variables.from_expr, collect_eq_collectNames]
    exact collectNames_err_invalid_iff (identsList e) [] name (by simp) (by decide)
  · simp only [validName, Bool.not_eq_true', Bool.or_eq_false_iff, Bool.not_eq_false',
      List.all_eq_true, decide_eq_false_iff_not, Nat.not_lt, Bool.or_eq_true, beq_iff_eq,
      MAX_VARIABLE_NAME_LENGTH, and_assoc]

theorem claim_C7_witness :
    Variables.from_expr (Expr.Identifier "a-b") = .error (.InvalidVariableName "a-b") := by
  have h := (claim_C7 (Expr.Identifier "a-b") "a-b").1
  exact h.mpr ⟨[], [], rfl, by simp, by decide, by decide⟩

/-- C7 counterexample: a tree that contains an invalid leaf (`"a-b"`) but
whose collection fails with `TooManyVariables`, not `InvalidVariableName`,
because the 21st distinct name is inserted before the invalid leaf is
reached — refuting "fails with InvalidVariableName exactly when some leaf's
name is invalid". -/
theorem claim_C7_counterexample :
    Variables.from_expr tree22 = .error (.TooManyVariables 21 20) ∧
    "a-b" ∈ identsList tree22 ∧ validName "a-b" = false := by
  refine ⟨rfl, by decide, by decide⟩

/-- C8: for a valid tree with at least one variable, if every enumerated
assignment evaluates true, `reduce` returns exactly the sentinel
`(true ∨ ¬true)`; if every assignment evaluates false it returns exactly
`(false ∧ ¬false)`; and an empty ON-set inside the minimizer yields the
always-false sentinel.  Both sentinels are built from the existing
`Identifier`/`Not`/`Or`/`And` node kinds. -/
theorem claim_C8 (e : Expr) (vars : List String)
    (hfe : Variables.from_expr e = .ok vars) (hne : vars ≠ []) :
    ((∀ i, i < 2 ^ vars.length →
        evaluate_expression e (qmAssignment vars vars.length i) = true) →
      reduce_expression e =
        .ok ⟨e, Expr.Or (.Identifier "true") (.Not (.Identifier "true")), true⟩) ∧
    ((∀ i, i < 2 ^ vars.length →
        evaluate_expression e (qmAssignment vars vars.length i) = false) →
      reduce_expression e =
        .ok ⟨e, Expr.And (.Identifier "false") (.Not (.Identifier "false")), true⟩) ∧
    (∀ vs : List String, minimize vs [] =
      some (Expr.And (.Identifier "false") (.Not (.Identifier "false")))) := by
  have hn0 : ¬(vars.length = 0) := fun hc => hne (List.length_eq_zero.mp hc)
  have htautdef : is_tautology e =
      ((List.range (1 <<< vars.length)).all fun i =>
        evaluate_expression e (qmAssignment vars vars.length i)) := by
    rw [is_tautology, hfe]
    show (if vars.length = 0 then false else
      (List.range (1 <<< vars.length)).all fun i =>
        evaluate_expression e (qmAssignment vars vars.length i)) = _
    rw [if_neg hn0]
  have hcontradef : is_contradiction e =
      ((List.range (1 <<< vars.length)).all fun i =>
        !(evaluate_expression e (qmAssignment vars vars.length i))) := by
    rw [is_contradiction, hfe]
    show (if vars.length = 0 then false else
      (List.range (1 <<< vars.length)).all fun i =>
        !(evaluate_expression e (qmAssignment vars vars.length i))) = _
    rw [if_neg hn0]
  refine ⟨?_, ?_, ?_⟩
  · intro hall
    have htaut : is_tautology e = true := by
      rw [htautdef, List.all_eq_true]
      intro i hi
      rw [List.mem_range, Nat.shiftLeft_eq, one_mul] at hi
      exact hall i hi
    exact reduce_expression_taut e htaut
  · intro hall
    have hcontra : is_contradiction e = true := by
      rw [hcontradef, List.all_eq_true]
      intro i hi
      rw [List.mem_range, Nat.shiftLeft_eq, one_mul] at hi
      rw [hall i hi]
      rfl
    have htaut : is_tautology e = false := by
      cases ht : is_tautology e with
      | false => rfl
      | true =>
          exfalso
          rw [htautdef, List.all_eq_true] at ht
          have h0mem : 0 ∈ List.range (1 <<< vars.length) := by
            rw [List.mem_range, Nat.shiftLeft_eq, one_mul]
            exact pow_pos (by norm_num) _
          have h1 := ht 0 h0mem
          have h2 := hall 0 (pow_pos (by norm_num) _)
          rw [h2] at h1
          cases h1
    exact reduce_expression_contra e htaut hcontra
  · intro vs
    rfl

theorem claim_C8_witness :
    reduce_expression (Expr.Or (.Identifier "a") (.Not (.Identifier "a"))) =
      .ok ⟨Expr.Or (.Identifier "a") (.Not (.Identifier "a")),
        Expr.Or (.Identifier "true") (.Not (.Identifier "true")), true⟩ :=
  (claim_C8 (Expr.Or (.Identifier "a") (.Not (.Identifier "a"))) ["a"]
    (by rfl) (by decide)).1 (by decide)

end Ttt
